import Mathlib

/-!
A shallow embedding of the query compiler, schema migrator, client wrapper and
DB layer of the sqlite table-storage module, together with proofs about the
properties its specification states.

The JavaScript sources are embedded as executable Lean definitions.  JS objects
(whose key iteration order is insertion order) are modelled as association
lists with insert-or-replace-in-place update; JS `undefined` and `null` are
distinct `Value` constructors; the wall clock (`new Date().getTime()`) is
passed explicitly as a `now` parameter.
-/

namespace RestbaseSqlite

/-- JS values as they flow through the query builders.  `pair` models the
two-element arrays used as `between` operator arguments. -/
inductive Value where
  | null
  | undef
  | str (s : String)
  | int (n : Int)
  | bool (b : Bool)
  | pair (a b : Value)
deriving DecidableEq, Repr

/-- JS object lookup: a missing key reads as `undefined`. -/
def getKey (m : List (String × α)) (k : String) : Option α :=
  match m with
  | [] => none
  | (k', v) :: rest => if k' = k then some v else getKey rest k

/-- JS object assignment: an existing key is updated in place (its position in
the iteration order is kept), a new key is appended at the end. -/
def setKey (m : List (String × α)) (k : String) (v : α) : List (String × α) :=
  match m with
  | [] => [(k, v)]
  | (k', v') :: rest => if k' = k then (k', v) :: rest else (k', v') :: setKey rest k v

/-- `Object.keys` -/
def objKeys (m : List (String × α)) : List String :=
  m.map (·.1)

/-- One element of a schema `index` declaration (`attr` is the source's
`attribute` field, which is a reserved word here). -/
structure IndexElem where
  attr : String
  type : String
  order : String
deriving DecidableEq, Repr

/-- The slice of a derived schema-info object that the query builders consume:
declared attribute types, the primary index keys in declared order, and the
per-attribute index elements. -/
structure SchemaInfo where
  attributes : List (String × String)
  iKeys : List String
  iKeyMap : List (String × IndexElem)
  proj : List String
deriving DecidableEq, Repr

/-- `dbu.fieldName`: quote an identifier, doubling embedded quotes. -/
def fieldName (name : String) : String :=
  "\x22" ++ ((name.toList.map (fun c => if c = '\x22' then "\x22\x22" else String.singleton c)).foldl (· ++ ·) "") ++ "\x22"

/-- `dbu.conversions.timeuuid.write` on the character list of a 36-char uuid:
reorder `tl-tm-thv-clockseq-node` to `th tm tl clockseq-node`, dropping the
version nibble.  (`value.substr(15, 3) + value.substr(9, 4) + value.substr(0, 8)
+ value.substr(19)`.) -/
def timeuuidWriteChars (s : List Char) : List Char :=
  ((s.drop 15).take 3) ++ ((s.drop 9).take 4) ++ ((s.drop 0).take 8) ++ s.drop 19

/-- `dbu.conversions.timeuuid.read`: re-insert the dashes and the version
nibble (`value.substr(7, 8) + '-' + value.substr(3, 4) + '-1' + value.substr(0, 3)
+ '-' + value.substr(15)`). -/
def timeuuidReadChars (s : List Char) : List Char :=
  ((s.drop 7).take 8) ++ ['-'] ++ ((s.drop 3).take 4) ++ ['-', '1'] ++ ((s.drop 0).take 3) ++ ['-'] ++ s.drop 15

/-- Per-type value codec `write`, from `dbu.conversions` plus the
`generateConverters` default (types without a declared `write` pass values
through unchanged).  Only the scalar codecs exercised by the claims are
modelled; `json`, `blob` and set codecs are outside the modelled fragment. -/
def convWrite (ty : String) (v : Value) : Value :=
  match ty with
  | "boolean" =>
    match v with
    | .null => .int 0
    | .undef => .int 0
    | .int 0 => .int 0
    | .str "" => .int 0
    | _ => .int 1
  | "timeuuid" =>
    match v with
    | .str s => .str ⟨timeuuidWriteChars s.toList⟩
    | _ => v
  | _ => v

/-- Look up an attribute's declared type and apply its codec `write`
(`schema.converters[schema.attributes[key]].write(value)`). -/
def schemaWrite (schema : SchemaInfo) (key : String) (v : Value) : Value :=
  match getKey schema.attributes key with
  | some ty => convWrite ty v
  | none => v

/-- A predicate operand in a `get`/`put` request: either a bare value
(equality) or an operator object. -/
inductive Pred where
  | val (v : Value)
  | ops (l : List (String × Value))
deriving DecidableEq, Repr

/-- `toLowerCase()` on the character data (our operator and `if` strings are
ASCII, where this matches JS exactly). -/
def jsToLower (s : String) : String :=
  ⟨s.data.map Char.toLower⟩

/-- The SQL fragment the `buildCondition` operator switch emits for one
operator, or the `Operator ... not supported!` error. -/
def predOpSql (predKey : String) (predOp : String) : Except String String :=
  match jsToLower predOp with
  | "eq" => .ok (fieldName predKey ++ " = ?")
  | "lt" => .ok (fieldName predKey ++ " < ?")
  | "gt" => .ok (fieldName predKey ++ " > ?")
  | "le" => .ok (fieldName predKey ++ " <= ?")
  | "ge" => .ok (fieldName predKey ++ " >= ?")
  | "between" => .ok (fieldName predKey ++ " >= ? AND " ++ fieldName predKey ++ " <= ?")
  | _ => .error ("Operator " ++ predOp ++ " not supported!")

/-- The parameters `buildCondition` pushes for one operator entry when
`extractParams` is set: `between` pushes both ends of its argument pair, every
other operator pushes its converted argument. -/
def predOpParams (schema : SchemaInfo) (predKey : String) (predOp : String) (predArg : Value) : List Value :=
  if predOp = "between" then
    match predArg with
    | .pair a b => [schemaWrite schema predKey a, schemaWrite schema predKey b]
    | _ => [schemaWrite schema predKey .undef, schemaWrite schema predKey .undef]
  else
    [schemaWrite schema predKey predArg]

/-- The conjuncts and parameters contributed by one predicate entry. -/
def predConjuncts (schema : SchemaInfo) (extractParams : Bool) (predKey : String) :
    Pred → Except String (List String × List Value)
  | .val v =>
    .ok ([fieldName predKey ++ " = ?"],
      if extractParams then [schemaWrite schema predKey v] else [])
  | .ops l =>
    l.foldlM (fun (acc : List String × List Value) (entry : String × Value) => do
      let sql ← predOpSql predKey entry.1
      let ps := if extractParams then predOpParams schema predKey entry.1 entry.2 else []
      return (acc.1 ++ [sql], acc.2 ++ ps)) ([], [])

/-- `buildCondition(pred, schema, includePreparedForDelete, extractParams)` of
the query compiler: predicate conjuncts in declared order, then the soft-delete
gate — `("_exist_until" > ? OR "_exist_until" is null )` when
`includePreparedForDelete` is truthy, `"_exist_until" is null` otherwise. -/
def buildCondition (pred : List (String × Pred)) (schema : SchemaInfo)
    (includePreparedForDelete : Bool) (extractParams : Bool) (now : Int) :
    Except String (String × List Value) := do
  let base ← pred.foldlM (fun (acc : List String × List Value) (entry : String × Pred) => do
    let (cs, ps) ← predConjuncts schema extractParams entry.1 entry.2
    return (acc.1 ++ cs, acc.2 ++ ps)) ([], [])
  let gated :=
    if includePreparedForDelete then
      (base.1 ++ ["(" ++ fieldName "_exist_until" ++ " > ? OR " ++ fieldName "_exist_until" ++ " is null )"],
       base.2 ++ (if extractParams then [Value.int now] else []))
    else
      (base.1 ++ [fieldName "_exist_until" ++ " is null"], base.2)
  return (String.intercalate " AND " gated.1, gated.2)

/-- A compiled get request. -/
structure GetQuery where
  attributes : Option (List (String × Pred))
  proj : Option (List String)
  distinct : Bool
  order : Option (List (String × String))
  limit : Option Nat
  next : Option Nat
  includePreparedForDelete : Option Bool
deriving DecidableEq, Repr

/-- `constructOrder(query, schema)`: for every range key of `iKeyMap` (in
declared order) emit the direction requested in `query.order` when one is
given (and truthy), the declared order otherwise.  No validation happens. -/
def constructOrder (order : Option (List (String × String))) (schema : SchemaInfo) : String :=
  let orderTerms := schema.iKeyMap.filterMap (fun (entry : String × IndexElem) =>
    if entry.2.type = "range" then
      let dir :=
        match order with
        | some o =>
          match getKey o entry.2.attr with
          | some d => if d = "" then entry.2.order else d
          | none => entry.2.order
        | none => entry.2.order
      some (fieldName entry.2.attr ++ " " ++ dir)
    else none)
  if orderTerms ≠ [] then " order by " ++ String.intercalate "," orderTerms ++ " " else ""

/-- `constructProj(query, schema)` restricted to array projections. -/
def constructProj (query : GetQuery) (schema : SchemaInfo) : String :=
  let projArr := match query.proj with | some p => p | none => schema.proj
  let proj := String.intercalate "," (projArr.map fieldName)
  if query.distinct then " distinct " ++ proj ++ " " else proj

/-- `isStaticJoinNeeded(query, schema)` for array (or absent) projections. -/
def isStaticJoinNeeded (query : Option GetQuery) (schema : SchemaInfo) : Bool :=
  match query with
  | some q =>
    match q.proj with
    | some p => p.any (fun key =>
        match getKey schema.iKeyMap key with
        | some elem => elem.type = "static"
        | none => false)
    | none => (objKeys schema.iKeyMap).any (fun key =>
        match getKey schema.iKeyMap key with
        | some elem => elem.type = "static"
        | none => false)
  | none => (objKeys schema.iKeyMap).any (fun key =>
      match getKey schema.iKeyMap key with
      | some elem => elem.type = "static"
      | none => false)

/-- `constructLimit(query)`; JS number truthiness makes `0` behave as absent. -/
def constructLimit (query : GetQuery) : String :=
  (match query.limit with
   | some n => if n ≠ 0 then " limit " ++ toString n else ""
   | none => "") ++
  (match query.next with
   | some n => if n ≠ 0 then " offset " ++ toString n else ""
   | none => "")

/-- `dbu.buildGetQuery(tableName, query, schema, includePreparedForDelete)` of
the current query compiler.  Note that an absent `includePreparedForDelete`
reaches `buildCondition` as a falsy value: there is no defaulting to `true`. -/
def buildGetQuery (tableName : String) (query : GetQuery) (schema : SchemaInfo)
    (includePreparedForDelete : Option Bool) : Except String String := do
  let limit := constructLimit query
  let condition ←
    match query.attributes with
    | some pred => do
      let condResult ← buildCondition pred schema (includePreparedForDelete = some true) false 0
      pure (" where " ++ condResult.1 ++ " ")
    | none => pure ""
  let proj := constructProj query schema
  let start :=
    if isStaticJoinNeeded (some query) schema then
      "select " ++ proj ++ " from [" ++ tableName ++ "_data] " ++
        "natural left outer join [" ++ tableName ++ "_static]"
    else
      "select " ++ proj ++ " from [" ++ tableName ++ "_data]"
  return start ++ condition ++ constructOrder query.order schema ++ limit

/-- `req.if` of a put request: a string form or a predicate object. -/
inductive PutIf where
  | str (s : String)
  | pred (l : List (String × Pred))
deriving DecidableEq, Repr

/-- A put request (`table` and other envelope fields are irrelevant to the
query builder). -/
structure PutReq where
  attributes : List (String × Value)
  ifCond : Option PutIf
deriving DecidableEq, Repr

/-- A compiled parameterized statement. -/
structure Stmt where
  sql : String
  params : List Value
deriving DecidableEq, Repr

/-- First loop of `buildPutQuery`: collect the primary-key attributes whose
request value is neither `undefined` nor `null` (before codec conversion). -/
def primaryKeyKVMap (req : PutReq) (schema : SchemaInfo) : List (String × Value) :=
  schema.iKeys.foldl (fun m key =>
    match getKey req.attributes key with
    | some v => if v = .undef ∨ v = .null then m else setKey m key v
    | none => m) []

/-- Second step of `buildPutQuery`: every request attribute is passed through
its codec `write` in place. -/
def convertedAttributes (req : PutReq) (schema : SchemaInfo) : List (String × Value) :=
  req.attributes.map (fun kv => (kv.1, schemaWrite schema kv.1 kv.2))

/-- `dataKVMap` after the index-key loop: every `iKey`'s (converted, possibly
`undefined`) value. -/
def dataKVMapKeys (attrs : List (String × Value)) (schema : SchemaInfo) : List (String × Value) :=
  schema.iKeys.foldl (fun m key => setKey m key ((getKey attrs key).getD .undef)) []

/-- `staticKVMap` after the index-key loop: the hash keys' values. -/
def staticKVMapKeys (attrs : List (String × Value)) (schema : SchemaInfo) : List (String × Value) :=
  schema.iKeys.foldl (fun m key =>
    match getKey schema.iKeyMap key with
    | some elem => if elem.type = "hash" then setKey m key ((getKey attrs key).getD .undef) else m
    | none => m) []

/-- The non-key attribute loop of `buildPutQuery`: defined attributes that are
in the schema go to `dataKVMap` when not indexed, to `staticKVMap` (setting
`staticNeeded`) when `static`. -/
def addNonKeyAttributes (attrs : List (String × Value)) (schema : SchemaInfo)
    (data staticm : List (String × Value)) :
    List (String × Value) × List (String × Value) × Bool :=
  attrs.foldl (fun acc kv =>
    if kv.2 ≠ .undef ∧ ((getKey schema.attributes kv.1).getD "") ≠ "" then
      match getKey schema.iKeyMap kv.1 with
      | none => (setKey acc.1 kv.1 kv.2, acc.2.1, acc.2.2)
      | some elem =>
        if elem.type = "static" then (acc.1, setKey acc.2.1 kv.1 kv.2, true) else acc
    else acc) (data, staticm, false)

/-- `dataKVMap` as `buildPutQuery` leaves it before branching. -/
def dataKVMapOf (req : PutReq) (schema : SchemaInfo) : List (String × Value) :=
  (addNonKeyAttributes (convertedAttributes req schema) schema
    (dataKVMapKeys (convertedAttributes req schema) schema)
    (staticKVMapKeys (convertedAttributes req schema) schema)).1

/-- `staticKVMap` as `buildPutQuery` leaves it, with the `staticNeeded` flag. -/
def staticKVMapOf (req : PutReq) (schema : SchemaInfo) : List (String × Value) × Bool :=
  (addNonKeyAttributes (convertedAttributes req schema) schema
    (dataKVMapKeys (convertedAttributes req schema) schema)
    (staticKVMapKeys (convertedAttributes req schema) schema)).2

/-- `Object.assign(primaryKeyKVMap, req.if)`: the update condition input — the
primary-key equalities overlaid with the `if` predicate. -/
def updateCondInput (pk : List (String × Value)) (ifPred : Option (List (String × Pred))) :
    List (String × Pred) :=
  let base := pk.map (fun kv => (kv.1, Pred.val kv.2))
  match ifPred with
  | some l => l.foldl (fun m kv => setKey m kv.1 kv.2) base
  | none => base

/-- `buildUpdateQuery(req, tableName, schema, dataKVMap, primaryKeyKVMap,
ignore)`: an UPDATE on the data table setting the non-key columns, whose WHERE
clause carries the key/`if` condition with the truthy soft-delete gate. -/
def buildUpdateQuery (tableName : String) (schema : SchemaInfo)
    (dataKVMap : List (String × Value)) (condInput : List (String × Pred))
    (ignore : Bool) (now : Int) : Except String Stmt := do
  let condition ← buildCondition condInput schema true true now
  let setCols := dataKVMap.filter (fun kv => kv.1 ∉ schema.iKeys)
  let sql := (if ignore then "update or ignore " else "update ") ++ "[" ++ tableName ++ "_data] set " ++
    String.intercalate "," (setCols.map (fun kv => fieldName kv.1 ++ "= ?")) ++
    " where " ++ condition.1
  return ⟨sql, setCols.map (·.2) ++ condition.2⟩

/-- `buildInsertQuery(tableName, dataKVMap)`: an INSERT OR IGNORE of every
`dataKVMap` column into the data table. -/
def buildInsertQuery (tableName : String) (dataKVMap : List (String × Value)) : Stmt :=
  let keyList := objKeys dataKVMap
  ⟨"insert or ignore into [" ++ tableName ++ "_data] (" ++
      String.intercalate "," (keyList.map fieldName) ++ ") values (" ++
      String.intercalate ", " (keyList.map (fun _ => "?")) ++ ")",
    dataKVMap.map (·.2)⟩

/-- `req.if.trim().split(/\s+/).join(' ').toLowerCase()` -/
def normalizePutIf (s : String) : String :=
  jsToLower (String.intercalate " " ((s.split Char.isWhitespace).filter (· ≠ "")))

/-- The INSERT OR REPLACE into the static sidecar table emitted when static
columns are present. -/
def staticInsertStmt (tableName : String) (staticKVMap : List (String × Value)) : Stmt :=
  ⟨"insert or replace into [" ++ tableName ++ "_static] (" ++
      String.intercalate ", " ((objKeys staticKVMap).map fieldName) ++ ") values (" ++
      String.intercalate ", " ((objKeys staticKVMap).map (fun _ => "?")) ++ ")",
    staticKVMap.map (·.2)⟩

/-- `dbu.buildPutQuery(req, tableName, schema, ignoreStatic)` of the current
query compiler: a conditional update when `req.if` is a predicate, a plain
INSERT OR IGNORE for `'not exists'`, and otherwise an UPDATE (only when some
non-primary-key column is written) followed by an INSERT OR IGNORE. -/
def buildPutQuery (req : PutReq) (tableName : String) (schema : SchemaInfo)
    (ignoreStatic : Bool) (now : Int) : Except String (List Stmt) := do
  let pkMap := primaryKeyKVMap req schema
  let dataKVMap := dataKVMapOf req schema
  let staticKVMap := (staticKVMapOf req schema).1
  let staticNeeded := (staticKVMapOf req schema).2
  let ifNorm : Option PutIf :=
    match req.ifCond with
    | some (.str s) => some (.str (normalizePutIf s))
    | o => o
  let queries ←
    match ifNorm with
    | some (.pred l) => do
      let u ← buildUpdateQuery tableName schema dataKVMap (updateCondInput pkMap (some l)) false now
      pure [u]
    | some (.str s) =>
      if s = "not exists" then
        pure [buildInsertQuery tableName dataKVMap]
      else do
        if dataKVMap.length > pkMap.length then
          let u ← buildUpdateQuery tableName schema dataKVMap (updateCondInput pkMap none) false now
          pure [u, buildInsertQuery tableName dataKVMap]
        else
          pure [buildInsertQuery tableName dataKVMap]
    | none => do
      if dataKVMap.length > pkMap.length then
        let u ← buildUpdateQuery tableName schema dataKVMap (updateCondInput pkMap none) false now
        pure [u, buildInsertQuery tableName dataKVMap]
      else
        pure [buildInsertQuery tableName dataKVMap]
  if staticNeeded ∧ ¬ignoreStatic then
    return queries ++ [staticInsertStmt tableName staticKVMap]
  else
    return queries

/-- `extractConditionParams` on one predicate entry: push the converted operand
values and null them out inside the request object.  (An empty operator object
is left untouched; the source would fault on it before any caching happens.) -/
def extractPredNull (schema : SchemaInfo) (predKey : String) : Pred → List Value × Pred
  | .val v => ([schemaWrite schema predKey v], .val .null)
  | .ops [] => ([], .ops [])
  | .ops ((op0, arg0) :: rest) =>
    if jsToLower op0 = "between" then
      match arg0 with
      | .pair a b =>
        ([schemaWrite schema predKey a, schemaWrite schema predKey b],
         .ops ((op0, .pair .null .null) :: rest))
      | _ =>
        ([schemaWrite schema predKey .undef, schemaWrite schema predKey .undef],
         .ops ((op0, arg0) :: rest))
    else
      (((op0, arg0) :: rest).map (fun kv => schemaWrite schema predKey kv.2),
       .ops (((op0, arg0) :: rest).map (fun kv => (kv.1, Value.null))))

/-- `extractConditionParams(query, schema)`: params in predicate order, and the
request's attributes with every operand value nulled out. -/
def extractConditionParams (schema : SchemaInfo) (pred : List (String × Pred)) :
    List Value × List (String × Pred) :=
  pred.foldl (fun acc kv =>
    let r := extractPredNull schema kv.1 kv.2
    (acc.1 ++ r.1, acc.2 ++ [(kv.1, r.2)])) ([], [])

/-- `dbu.extractGetParams(query, schema, includePreparedForDelete)`: returns
the parameter vector and the request object as the extraction leaves it (the
falsy-gate branch stores `includePreparedForDelete = false` on the request). -/
def extractGetParams (query : GetQuery) (schema : SchemaInfo)
    (includePreparedForDelete : Option Bool) (now : Int) : List Value × GetQuery :=
  let step :=
    match query.attributes with
    | some pred =>
      let r := extractConditionParams schema pred
      (r.1, { query with attributes := some r.2 })
    | none => ([], query)
  if includePreparedForDelete = some true then
    (step.1 ++ [Value.int now], step.2)
  else
    (step.1, { step.2 with includePreparedForDelete := some false })

/-- The canonical serialization of a request used in prepared-statement cache
keys.  `json-stable-stringify` is a pure function of the request object;
any such function supports the cache-key reasoning, so the derived `Repr`
rendering stands in for it. -/
def stringifyGetQuery (q : GetQuery) : String :=
  toString (repr q)

/-- `DB._createGetQuery`'s cache key: `tableName + ':' + stringify(req)` as
computed after `extractGetParams` has nulled the operand values. -/
def createGetQueryKey (tableName : String) (query : GetQuery) (schema : SchemaInfo)
    (includePreparedForDelete : Option Bool) (now : Int) : String :=
  tableName ++ ":" ++ stringifyGetQuery (extractGetParams query schema includePreparedForDelete now).2

/-- One pass of the order-validation loop of the legacy `buildGetQuery`
(src/lib/dbutils.js): every ordered attribute must carry a valid direction and
be a range key, and all entries must agree on whether they reverse the declared
order; the accumulated `reversed` flag is returned. -/
def checkOrderGo (iKeyMap : List (String × IndexElem)) :
    Option Bool → List (String × String) → Except String (Option Bool)
  | reversed, [] => .ok reversed
  | reversed, entry :: rest =>
    if entry.2 ≠ "asc" ∧ entry.2 ≠ "desc" then
      .error ("Invalid sort order " ++ entry.2 ++ " on key " ++ entry.1)
    else
      match getKey iKeyMap entry.1 with
      | none => .error ("Cannot order on attribute " ++ entry.1 ++ "; needs to be a range index")
      | some idxElem =>
        if idxElem.type ≠ "range" then
          .error ("Cannot order on attribute " ++ entry.1 ++ "; needs to be a range index")
        else
          match reversed with
          | none => checkOrderGo iKeyMap (some (decide (entry.2 ≠ idxElem.order))) rest
          | some r =>
            if r ≠ decide (entry.2 ≠ idxElem.order) then
              .error "Inconsistent sort order; sqlite only supports reversing the default sort order."
            else
              checkOrderGo iKeyMap (some r) rest

/-- The whole order-validation loop, entered with `reversed` undefined. -/
def checkOrderLegacy (order : List (String × String)) (iKeyMap : List (String × IndexElem)) :
    Except String (Option Bool) :=
  checkOrderGo iKeyMap none order

/-- The order-by emission of the legacy `buildGetQuery`, after validation:
every range element of the schema index is emitted with its declared order,
flipped when the request reverses. -/
def buildOrderLegacy (order : List (String × String)) (index : List IndexElem)
    (iKeyMap : List (String × IndexElem)) : Except String String := do
  let reversed ← checkOrderLegacy order iKeyMap
  let rev := reversed.getD false
  let orderTerms := index.filterMap (fun elem =>
    if elem.type = "range" then
      some (fieldName elem.attr ++ " " ++
        (if rev then (if elem.order = "asc" then "desc" else "asc") else elem.order))
    else none)
  if orderTerms ≠ [] then
    return " order by " ++ String.intercalate "," orderTerms
  else
    return ""

/-! ## Schema migrator -/

/-- The slice of a schema-info object the migrator's handlers consume.
`secondaryIndexes` maps index names to their stable serialization (the source
compares them with `stringify`). -/
structure SchemaRec where
  table : String
  attributes : List (String × String)
  index : List IndexElem
  secondaryIndexes : List (String × String)
  version : Nat
  hash : String
deriving DecidableEq, Repr

/-- `Unsupported.validate` applied to the two table names.  In the source the
handler reads `.hash` on both (string) values; both reads yield `undefined`,
so the comparison never fails — table renames pass this validator. -/
def tableValidate (_cur _prop : String) : Except String Unit :=
  .ok ()

/-- `Attributes.prototype.validate`: always passes (attribute adds and
tolerated deletes are handled at migration time). -/
def attributesValidate : Except String Unit :=
  .ok ()

/-- `Index.prototype._hasSameIndex` -/
def hasSameIndex (indexes : List IndexElem) (proposedIndex : IndexElem) : Bool :=
  indexes.any (fun idx =>
    idx.attr = proposedIndex.attr ∧ idx.type = proposedIndex.type ∧ idx.order = proposedIndex.order)

/-- The `addIndex` diff: proposed elements without an identical current one. -/
def addIndexOf (cur prop : SchemaRec) : List IndexElem :=
  prop.index.filter (fun x => ¬ hasSameIndex cur.index x)

/-- The `delIndex` diff: current elements without an identical proposed one. -/
def delIndexOf (cur prop : SchemaRec) : List IndexElem :=
  cur.index.filter (fun x => ¬ hasSameIndex prop.index x)

/-- `alteredColumns`: index diffs that touch a column existing on the other
side — changing an existing column's index. -/
def alteredColumnsOf (cur prop : SchemaRec) : List String :=
  (addIndexOf cur prop).filterMap (fun i =>
    if ((getKey cur.attributes i.attr).getD "") ≠ "" then some i.attr else none) ++
  (delIndexOf cur prop).filterMap (fun i =>
    if ((getKey prop.attributes i.attr).getD "") ≠ "" then some i.attr else none)

/-- `Index.prototype.validate` -/
def indexValidate (cur prop : SchemaRec) : Except String Unit :=
  if (addIndexOf cur prop).any (fun i => i.type ≠ "static")
      ∨ (delIndexOf cur prop).any (fun i => i.type ≠ "static") then
    .error "Only static index additions and removals supported"
  else if alteredColumnsOf cur prop ≠ [] then
    .error "Changing index on existing column not supported"
  else
    .ok ()

/-- `SecondaryIndexes.prototype.validate`: added or changed secondary indexes
are rejected; deletions pass. -/
def secondaryIndexesValidate (cur prop : List (String × String)) : Except String Unit :=
  let added := prop.filter (fun kv => (getKey cur kv.1).isNone)
  let changed := cur.filter (fun kv =>
    match getKey prop kv.1 with
    | some v => v ≠ kv.2
    | none => false)
  if added ≠ [] then
    .error "Adding secondary indices is not supported"
  else if changed ≠ [] then
    .error "Altering of secondary indices is not supported"
  else
    .ok ()

/-- `Version.prototype.validate`: versions must strictly increase. -/
def versionValidate (cur prop : Nat) : Except String Unit :=
  if cur ≥ prop then .error "new version must be higher than previous" else .ok ()

/-- The `SchemaMigrator` constructor's `_validate`: the handlers run in their
declared order (`table`, `attributes`, `index`, `secondaryIndexes`,
`version`) and the first failure propagates. -/
def migratorValidate (cur prop : SchemaRec) : Except String Unit := do
  tableValidate cur.table prop.table
  attributesValidate
  indexValidate cur prop
  secondaryIndexesValidate cur.secondaryIndexes prop.secondaryIndexes
  versionValidate cur.version prop.version

/-- `new SchemaMigrator(db, req, table, current, proposed)`: validation runs
inside the constructor, so a migrator object — the only holder of a
`migrate()` method that can issue DDL — exists only when the whole diff
validates. -/
def schemaMigratorNew (cur prop : SchemaRec) : Except String (SchemaRec × SchemaRec) :=
  (migratorValidate cur prop).map (fun _ => (cur, prop))

/-! ## Client wrapper: `Wrapper.run` -/

/-- Observable actions of one `run(queries)` call. -/
inductive RunEv where
  | acquire
  | begin
  | sleep (ms : Nat)
  | exec (sql : String)
  | rollback
  | commit
  | release
deriving DecidableEq, Repr

/-- Engine response to one `begin immediate` attempt. -/
inductive BeginRes where
  | ok
  | busy
  | fail (e : String)
deriving DecidableEq, Repr

/-- The engine's behaviour during one `run` call: the result of the i-th
`begin immediate` attempt, of executing the i-th filtered statement, and of
the final commit (`none` = success). -/
structure EngineOracle where
  beginRes : Nat → BeginRes
  execRes : Nat → Option String
  commitRes : Option String

/-- The `beginTransaction` retry loop: attempt `begin immediate`; on
`SQLITE_BUSY` with retries remaining, sleep a jittered delay and try again
(`retryCount++ < this.retryLimit`); any other failure, or retry exhaustion,
propagates the error. -/
def beginImmediate (oracle : EngineOracle) (rand : Nat → Nat) :
    Nat → Nat → List RunEv × Except String Unit
  | attempt, 0 =>
    match oracle.beginRes attempt with
    | .ok => ([.begin], .ok ())
    | .fail e => ([.begin], .error e)
    | .busy => ([.begin], .error "SQLITE_BUSY")
  | attempt, r + 1 =>
    match oracle.beginRes attempt with
    | .ok => ([.begin], .ok ())
    | .fail e => ([.begin], .error e)
    | .busy =>
      let next := beginImmediate oracle rand (attempt + 1) r
      (.begin :: .sleep (rand attempt) :: next.1, next.2)

/-- `P.each(queries, ...)`: execute statements in declared order until the
first failure. -/
def execQueries (oracle : EngineOracle) : List String → Nat → List RunEv × Except String Unit
  | [], _ => ([], .ok ())
  | q :: qs, i =>
    match oracle.execRes i with
    | none =>
      let next := execQueries oracle qs (i + 1)
      (.exec q :: next.1, next.2)
    | some e => ([.exec q], .error e)

/-- The statements `run` actually executes: `queries.filter((q) => q && q.sql)`. -/
def filteredQueries (queries : List (Option Stmt)) : List Stmt :=
  (queries.filterMap id).filter (fun q => q.sql ≠ "")

/-- `Wrapper.run(queries)`: acquire the single writer connection, begin the
transaction with busy-retry, execute the filtered statements in order, and
commit; a mid-transaction failure rolls back, releases the connection and
re-raises. -/
def wrapperRun (retryLimit : Nat) (rand : Nat → Nat) (oracle : EngineOracle)
    (queries : List (Option Stmt)) : List RunEv × Except String Unit :=
  let b := beginImmediate oracle rand 0 retryLimit
  match b.2 with
  | .error e => (.acquire :: b.1 ++ [.release], .error e)
  | .ok _ =>
    let ex := execQueries oracle ((filteredQueries queries).map (·.sql)) 0
    match ex.2 with
    | .error e => (.acquire :: b.1 ++ ex.1 ++ [.rollback, .release], .error e)
    | .ok _ =>
      match oracle.commitRes with
      | none => (.acquire :: b.1 ++ ex.1 ++ [.commit, .release], .ok ())
      | some e => (.acquire :: b.1 ++ ex.1 ++ [.commit, .release], .error e)

/-! ## DB layer -/

/-- Side effects of a `createTable` call. -/
inductive CreateEffect where
  | createDDL
  | migrate
  | invalidateCache
  | metaWrite
deriving DecidableEq, Repr

/-- The decision logic of `DB.createTable` once the stored schema has been
loaded: equal schema-info hashes short-circuit to `{status: 201}` with no
effect; differing hashes construct a migrator (a validation failure becomes
the 400 error); an absent schema materializes the physical tables.  Successful
non-short-circuit paths rewrite the meta row and resolve to 201. -/
def createTableModel (currentSchema : Option SchemaRec) (proposed : SchemaRec) :
    Except String (List CreateEffect × Nat) :=
  match currentSchema with
  | some cur =>
    if cur.hash ≠ proposed.hash then
      (schemaMigratorNew cur proposed).map (fun _ =>
        ([.migrate, .invalidateCache, .metaWrite], 201))
    else
      .ok ([], 201)
  | none => .ok ([.createDDL, .metaWrite], 201)

/-- An engine error as the sqlite driver delivers it (`err.cause.code`). -/
structure SqlCause where
  code : String
deriving DecidableEq, Repr

/-- A wrapped engine error. -/
structure SqlError where
  cause : Option SqlCause
  message : String
deriving DecidableEq, Repr

/-- Per-type codec `read` (scalar fragment, as for `convWrite`). -/
def convRead (ty : String) (v : Value) : Value :=
  match ty with
  | "boolean" =>
    match v with
    | .int 0 => .bool false
    | _ => .bool true
  | "timeuuid" =>
    match v with
    | .str s => .str ⟨timeuuidReadChars s.toList⟩
    | _ => v
  | _ => v

/-- The row conversion inside `DB._get` (without the `withTTL` option): drop
the `_exist_until` bookkeeping column and pass every schema attribute through
its codec `read`. -/
def convertRowGet (schema : SchemaInfo) (row : List (String × Value)) : List (String × Value) :=
  (row.filter (fun kv => kv.1 ≠ "_exist_until")).map (fun kv =>
    if ((getKey schema.attributes kv.1).getD "") ≠ "" then
      (kv.1, convRead ((getKey schema.attributes kv.1).getD "") kv.2)
    else kv)

/-- The `{count, items, next?}` envelope a `get` resolves with. -/
structure GetResult where
  count : Nat
  items : List (List (String × Value))
  next : Option Nat
deriving DecidableEq, Repr

/-- The result handling of `DB._get` applied to the engine's response: a null
result and an engine error whose `cause.code` is `SQLITE_ERROR` both resolve
to the empty result; any other error re-raises; rows are converted and counted,
with an offset cursor when `limit` or `next` was given. -/
def dbGetResult (schema : SchemaInfo) (req : GetQuery)
    (engineResult : Except SqlError (Option (List (List (String × Value))))) :
    Except SqlError GetResult :=
  match engineResult with
  | .ok none => .ok ⟨0, [], none⟩
  | .ok (some rows) =>
    let converted := rows.map (convertRowGet schema)
    let nextV :=
      if req.next.getD 0 ≠ 0 ∨ req.limit.getD 0 ≠ 0 then
        some (req.next.getD 0 + converted.length)
      else none
    .ok ⟨converted.length, converted, nextV⟩
  | .error err =>
    match err.cause with
    | some c => if c.code = "SQLITE_ERROR" then .ok ⟨0, [], none⟩ else .error err
    | none => .error err

/-! ## Soft-delete gate semantics and the retention policy step -/

/-- SQL truth of the emitted default gate conjunct
`("_exist_until" > ? OR "_exist_until" is null )` with `?` bound to `now`, on
a row whose `_exist_until` column holds `e`. -/
def gateDefaultHolds (e : Option Int) (now : Int) : Bool :=
  match e with
  | none => true
  | some t => decide (now < t)

/-- SQL truth of the falsy-gate conjunct `"_exist_until" is null`. -/
def gateNullHolds (e : Option Int) : Bool :=
  e.isNone

/-- SQL truth of the GC statement's predicate `"_exist_until" < ?` (rows it
deletes); `NULL < now` is not true, so live rows survive. -/
def deleteExpiredRemoves (e : Option Int) (now : Int) : Bool :=
  match e with
  | none => false
  | some t => decide (t < now)

/-- A data-table row as the retention engine sees it: its hash-key group, its
`tid` (whose shuffled text sorts chronologically, so a numeric stand-in keeps
the order), and its `_exist_until` column. -/
structure DRow where
  hashKey : Value
  tid : Nat
  existUntil : Option Int
deriving DecidableEq, Repr

/-- Membership test for the retention query's result set: the policy's `get`
filters on the written row's non-`tid` index keys, and — its gating being
unspecified, hence falsy — on `"_exist_until" is null`. -/
def isLiveGroup (group : Value) (r : DRow) : Bool :=
  r.hashKey = group ∧ r.existUntil = none

/-- The rows the retention `get` returns: the group's live rows ordered by
`tid` descending (`order by tid desc`). -/
def liveGroupRows (tbl : List DRow) (group : Value) : List DRow :=
  (tbl.filter (isLiveGroup group)).insertionSort (fun a b => b.tid ≤ a.tid)

/-- Whether the per-item UPDATE of the retention step hits row `r`: the row is
keyed by the extra item's primary key and its WHERE clause carries the truthy
soft-delete gate. -/
def tombstoneCond (group : Value) (extraTids : List Nat) (now : Int) (r : DRow) : Bool :=
  decide (r.hashKey = group) && extraTids.contains r.tid && gateDefaultHolds r.existUntil now

/-- The table-state effect of `_revisionPolicyUpdate` under policy
`latest(count, grace_ttl)` after a put on `group`:  when more than `count`
live revisions exist, every one past the `count` most recent receives
`_exist_until = now + grace_ttl*1000` via an UPDATE keyed on its primary key
(whose WHERE clause carries the truthy gate), and the appended
`buildDeleteExpiredQuery` purges rows whose `_exist_until` already passed. -/
def revisionPolicyUpdateLatest (tbl : List DRow) (group : Value) (cnt : Nat)
    (graceTtl now : Int) : List DRow :=
  let live := liveGroupRows tbl group
  if live.length > cnt then
    let expireTime := now + graceTtl * 1000
    let extraTids := (live.drop cnt).map (·.tid)
    let assigned := tbl.map (fun r =>
      if tombstoneCond group extraTids now r then { r with existUntil := some expireTime } else r)
    assigned.filter (fun r => ¬ deleteExpiredRemoves r.existUntil now)
  else
    tbl

/-! ## Timeuuid textual ordering -/

/-- JS string comparison `s1 < s2`: code units are compared pairwise; the
first difference decides, otherwise the shorter string is smaller. -/
def jsLtChars : List Char → List Char → Bool
  | [], [] => false
  | [], _ :: _ => true
  | _ :: _, [] => false
  | a :: as, b :: bs =>
    if a.toNat < b.toNat then true
    else if b.toNat < a.toNat then false
    else jsLtChars as bs

/-- Lowercase hexadecimal digit. -/
def isHexLower (c : Char) : Bool :=
  decide ((48 ≤ c.toNat ∧ c.toNat ≤ 57) ∨ (97 ≤ c.toNat ∧ c.toNat ≤ 102))

/-- Numeric value of a lowercase hex digit. -/
def hexVal (c : Char) : Nat :=
  if c.toNat ≤ 57 then c.toNat - 48 else c.toNat - 87

/-- Big-endian numeric value of a hex digit string. -/
def hexValList : List Char → Nat
  | [] => 0
  | c :: cs => hexVal c * 16 ^ cs.length + hexValList cs

/-- The 36-char canonical text of a v1 uuid with time-low `tl`, time-mid `tm`,
version nibble `1`, time-high `th`, clock sequence `cs` and node `nd`:
`tl-tm-1th-cs-nd`. -/
def assembleV1 (tl tm th cs nd : List Char) : List Char :=
  tl ++ ['-'] ++ tm ++ ['-', '1'] ++ th ++ ['-'] ++ cs ++ ['-'] ++ nd

/-- The 60-bit timestamp a v1 uuid embeds: time-high, time-mid, time-low. -/
def embeddedTime (tl tm th : List Char) : Nat :=
  hexValList (th ++ tm ++ tl)

theorem hexVal_lt_16 {c : Char} (h : isHexLower c = true) : hexVal c < 16 := by
  simp only [isHexLower, decide_eq_true_eq] at h
  unfold hexVal
  split <;> omega

theorem hexVal_lt_iff {a b : Char} (ha : isHexLower a = true) (hb : isHexLower b = true) :
    hexVal a < hexVal b ↔ a.toNat < b.toNat := by
  simp only [isHexLower, decide_eq_true_eq] at ha hb
  unfold hexVal
  split_ifs <;> omega

theorem hexVal_eq_iff {a b : Char} (ha : isHexLower a = true) (hb : isHexLower b = true) :
    hexVal a = hexVal b ↔ a.toNat = b.toNat := by
  simp only [isHexLower, decide_eq_true_eq] at ha hb
  unfold hexVal
  split_ifs <;> omega

theorem hex_block_lt {x y tx ty n : Nat} (htx : tx < 16 ^ n) (hxy : x < y) :
    x * 16 ^ n + tx < y * 16 ^ n + ty := by
  calc x * 16 ^ n + tx < x * 16 ^ n + 16 ^ n := by omega
    _ = (x + 1) * 16 ^ n := by ring
    _ ≤ y * 16 ^ n := Nat.mul_le_mul_right _ hxy
    _ ≤ y * 16 ^ n + ty := by omega

theorem hexValList_lt {cs : List Char} (h : ∀ c ∈ cs, isHexLower c = true) :
    hexValList cs < 16 ^ cs.length := by
  induction cs with
  | nil => simp [hexValList]
  | cons c cs ih =>
    have hc := hexVal_lt_16 (h c (by simp))
    have ht := ih (fun x hx => h x (by simp [hx]))
    have h16 : (0:ℕ) < 16 ^ cs.length := by positivity
    simp only [hexValList, List.length_cons, pow_succ]
    nlinarith

/-- On equal-length lowercase-hex strings, the JS string order agrees with the
numeric order of the encoded values. -/
theorem jsLtChars_hex {as bs : List Char} (hlen : as.length = bs.length)
    (ha : ∀ c ∈ as, isHexLower c = true) (hb : ∀ c ∈ bs, isHexLower c = true) :
    jsLtChars as bs = true ↔ hexValList as < hexValList bs := by
  induction as generalizing bs with
  | nil =>
    cases bs with
    | nil => simp [jsLtChars, hexValList]
    | cons b bs => simp at hlen
  | cons a as ih =>
    cases bs with
    | nil => simp at hlen
    | cons b bs =>
      have hlen' : as.length = bs.length := by simpa using hlen
      have haa : isHexLower a = true := ha a (by simp)
      have hbb : isHexLower b = true := hb b (by simp)
      have has : ∀ c ∈ as, isHexLower c = true := fun c hc => ha c (by simp [hc])
      have hbs : ∀ c ∈ bs, isHexLower c = true := fun c hc => hb c (by simp [hc])
      have hta := hexValList_lt has
      have htb := hexValList_lt hbs
      have ea : hexValList (a :: as) = hexVal a * 16 ^ as.length + hexValList as := rfl
      have eb : hexValList (b :: bs) = hexVal b * 16 ^ bs.length + hexValList bs := rfl
      rw [hlen'] at ea hta
      by_cases hab : a.toNat < b.toNat
      · have hv : hexVal a < hexVal b := (hexVal_lt_iff haa hbb).mpr hab
        have hlt : jsLtChars (a :: as) (b :: bs) = true := by simp [jsLtChars, hab]
        rw [hlt, ea, eb]
        exact iff_of_true rfl (hex_block_lt hta hv)
      · by_cases hba : b.toNat < a.toNat
        · have hv : hexVal b < hexVal a := (hexVal_lt_iff hbb haa).mpr hba
          have hlt : jsLtChars (a :: as) (b :: bs) = false := by simp [jsLtChars, hab, hba]
          rw [hlt, ea, eb]
          exact iff_of_false Bool.false_ne_true
            (Nat.not_lt.mpr (Nat.le_of_lt (hex_block_lt htb hv)))
        · have hv : hexVal a = hexVal b := by
            apply (hexVal_eq_iff haa hbb).mpr
            omega
          have hlt : jsLtChars (a :: as) (b :: bs) = jsLtChars as bs := by
            simp [jsLtChars, hab, hba]
          rw [hlt, ea, eb, ih hlen' has hbs, hv]
          omega

theorem char_eq_of_toNat_eq {a b : Char} (h : a.toNat = b.toNat) : a = b :=
  Char.eq_of_val_eq (UInt32.toNat.inj h)

/-- JS string comparison of equal-length-prefixed concatenations: the prefixes
decide unless they are equal. -/
theorem jsLtChars_append {p1 p2 s1 s2 : List Char} (h : p1.length = p2.length) :
    jsLtChars (p1 ++ s1) (p2 ++ s2) =
      if p1 = p2 then jsLtChars s1 s2 else jsLtChars p1 p2 := by
  induction p1 generalizing p2 with
  | nil =>
    cases p2 with
    | nil => simp
    | cons b bs => simp at h
  | cons a as ih =>
    cases p2 with
    | nil => simp at h
    | cons b bs =>
      have h' : as.length = bs.length := by simpa using h
      by_cases hab : a.toNat < b.toNat
      · have hne : a ≠ b := fun he => by subst he; omega
        simp [jsLtChars, hab, hne]
      · by_cases hba : b.toNat < a.toNat
        · have hne : a ≠ b := fun he => by subst he; omega
          simp [jsLtChars, hab, hba, hne]
        · have heq : a = b := char_eq_of_toNat_eq (by omega)
          subst heq
          simp only [List.cons_append, jsLtChars, hab, if_false, List.append_eq]
          rw [ih h']
          by_cases hasbs : as = bs
          · simp [hasbs]
          · have : ¬(a :: as = a :: bs) := by simp [hasbs]
            simp [hasbs, this, jsLtChars, hab]

theorem drop_append_of_length_le {l₁ l₂ : List α} {n : Nat} (h : l₁.length ≤ n) :
    (l₁ ++ l₂).drop n = l₂.drop (n - l₁.length) := by
  induction l₁ generalizing n with
  | nil => simp
  | cons a as ih =>
    cases n with
    | zero => simp at h
    | succ m =>
      simp only [List.cons_append, List.drop_succ_cons, List.length_cons]
      rw [ih (by simpa using h)]
      congr 1
      omega

theorem take_append_of_length_eq {l₁ l₂ : List α} {n : Nat} (h : l₁.length = n) :
    (l₁ ++ l₂).take n = l₁ := by
  subst h
  simp

/-- `timeuuidWriteChars` on a canonical v1 uuid produces the timestamp nibbles
(high, mid, low) followed by the clock-sequence/node suffix. -/
theorem timeuuidWriteChars_assembleV1 {tl tm th cs nd : List Char}
    (htl : tl.length = 8) (htm : tm.length = 4) (hth : th.length = 3) :
    timeuuidWriteChars (assembleV1 tl tm th cs nd) =
      (th ++ tm ++ tl) ++ (cs ++ ['-'] ++ nd) := by
  unfold timeuuidWriteChars assembleV1
  have e15 : (tl ++ ['-'] ++ tm ++ ['-', '1'] ++ th ++ ['-'] ++ cs ++ ['-'] ++ nd).drop 15
      = th ++ (['-'] ++ cs ++ ['-'] ++ nd) := by
    rw [show tl ++ ['-'] ++ tm ++ ['-', '1'] ++ th ++ ['-'] ++ cs ++ ['-'] ++ nd
        = (tl ++ ['-'] ++ tm ++ ['-', '1']) ++ (th ++ (['-'] ++ cs ++ ['-'] ++ nd)) by
      simp [List.append_assoc]]
    rw [drop_append_of_length_le (by simp [htl, htm])]
    simp [htl, htm]
  have e9 : (tl ++ ['-'] ++ tm ++ ['-', '1'] ++ th ++ ['-'] ++ cs ++ ['-'] ++ nd).drop 9
      = tm ++ (['-', '1'] ++ th ++ ['-'] ++ cs ++ ['-'] ++ nd) := by
    rw [show tl ++ ['-'] ++ tm ++ ['-', '1'] ++ th ++ ['-'] ++ cs ++ ['-'] ++ nd
        = (tl ++ ['-']) ++ (tm ++ (['-', '1'] ++ th ++ ['-'] ++ cs ++ ['-'] ++ nd)) by
      simp [List.append_assoc]]
    rw [drop_append_of_length_le (by simp [htl])]
    simp [htl]
  have e19 : (tl ++ ['-'] ++ tm ++ ['-', '1'] ++ th ++ ['-'] ++ cs ++ ['-'] ++ nd).drop 19
      = cs ++ ['-'] ++ nd := by
    rw [show tl ++ ['-'] ++ tm ++ ['-', '1'] ++ th ++ ['-'] ++ cs ++ ['-'] ++ nd
        = (tl ++ ['-'] ++ tm ++ ['-', '1'] ++ th ++ ['-']) ++ (cs ++ ['-'] ++ nd) by
      simp [List.append_assoc]]
    rw [drop_append_of_length_le (by simp [htl, htm, hth])]
    simp [htl, htm, hth, List.append_assoc]
  rw [e15, e9, e19, List.drop_zero]
  rw [take_append_of_length_eq hth, take_append_of_length_eq htm]
  rw [show tl ++ ['-'] ++ tm ++ ['-', '1'] ++ th ++ ['-'] ++ cs ++ ['-'] ++ nd
      = tl ++ (['-'] ++ tm ++ ['-', '1'] ++ th ++ ['-'] ++ cs ++ ['-'] ++ nd) by
    simp [List.append_assoc]]
  rw [take_append_of_length_eq htl]

/-- The timestamp a canonical v1 uuid text embeds, extracted by the same
`substr` offsets the codec uses: time-high nibbles, then time-mid, then
time-low. -/
def embeddedTimeOfUuid (s : List Char) : Nat :=
  hexValList (((s.drop 15).take 3) ++ ((s.drop 9).take 4) ++ ((s.drop 0).take 8))

theorem embeddedTimeOfUuid_assembleV1 {tl tm th cs nd : List Char}
    (htl : tl.length = 8) (htm : tm.length = 4) (hth : th.length = 3) :
    embeddedTimeOfUuid (assembleV1 tl tm th cs nd) = embeddedTime tl tm th := by
  unfold embeddedTimeOfUuid embeddedTime assembleV1
  have e15 : (tl ++ ['-'] ++ tm ++ ['-', '1'] ++ th ++ ['-'] ++ cs ++ ['-'] ++ nd).drop 15
      = th ++ (['-'] ++ cs ++ ['-'] ++ nd) := by
    rw [show tl ++ ['-'] ++ tm ++ ['-', '1'] ++ th ++ ['-'] ++ cs ++ ['-'] ++ nd
        = (tl ++ ['-'] ++ tm ++ ['-', '1']) ++ (th ++ (['-'] ++ cs ++ ['-'] ++ nd)) by
      simp [List.append_assoc]]
    rw [drop_append_of_length_le (by simp [htl, htm])]
    simp [htl, htm]
  have e9 : (tl ++ ['-'] ++ tm ++ ['-', '1'] ++ th ++ ['-'] ++ cs ++ ['-'] ++ nd).drop 9
      = tm ++ (['-', '1'] ++ th ++ ['-'] ++ cs ++ ['-'] ++ nd) := by
    rw [show tl ++ ['-'] ++ tm ++ ['-', '1'] ++ th ++ ['-'] ++ cs ++ ['-'] ++ nd
        = (tl ++ ['-']) ++ (tm ++ (['-', '1'] ++ th ++ ['-'] ++ cs ++ ['-'] ++ nd)) by
      simp [List.append_assoc]]
    rw [drop_append_of_length_le (by simp [htl])]
    simp [htl]
  rw [e15, e9, List.drop_zero]
  rw [take_append_of_length_eq hth, take_append_of_length_eq htm]
  rw [show tl ++ ['-'] ++ tm ++ ['-', '1'] ++ th ++ ['-'] ++ cs ++ ['-'] ++ nd
      = tl ++ (['-'] ++ tm ++ ['-', '1'] ++ th ++ ['-'] ++ cs ++ ['-'] ++ nd) by
    simp [List.append_assoc]]
  rw [take_append_of_length_eq htl]

/-- C3 (amended): for v1 timeuuids in canonical lowercase 36-character form,
the timeuuid codec's `write` maps a strictly smaller embedded timestamp to a
lexicographically strictly smaller string, and a lexicographically strictly
smaller written string implies the embedded timestamp is smaller or equal (it
can be equal, the order then being decided by the clock-sequence/node
suffix). -/
theorem timeuuid_write_order_correspondence
    (tl1 tm1 th1 cs1 nd1 tl2 tm2 th2 cs2 nd2 : List Char)
    (htl1 : tl1.length = 8) (htm1 : tm1.length = 4) (hth1 : th1.length = 3)
    (htl2 : tl2.length = 8) (htm2 : tm2.length = 4) (hth2 : th2.length = 3)
    (hex1 : ∀ c ∈ th1 ++ tm1 ++ tl1, isHexLower c = true)
    (hex2 : ∀ c ∈ th2 ++ tm2 ++ tl2, isHexLower c = true) :
    (embeddedTime tl1 tm1 th1 < embeddedTime tl2 tm2 th2 →
      jsLtChars (timeuuidWriteChars (assembleV1 tl1 tm1 th1 cs1 nd1))
        (timeuuidWriteChars (assembleV1 tl2 tm2 th2 cs2 nd2)) = true) ∧
    (jsLtChars (timeuuidWriteChars (assembleV1 tl1 tm1 th1 cs1 nd1))
        (timeuuidWriteChars (assembleV1 tl2 tm2 th2 cs2 nd2)) = true →
      embeddedTime tl1 tm1 th1 ≤ embeddedTime tl2 tm2 th2) := by
  rw [timeuuidWriteChars_assembleV1 htl1 htm1 hth1,
      timeuuidWriteChars_assembleV1 htl2 htm2 hth2]
  have hplen : (th1 ++ tm1 ++ tl1).length = (th2 ++ tm2 ++ tl2).length := by
    simp [htl1, htm1, hth1, htl2, htm2, hth2]
  rw [jsLtChars_append hplen]
  have hhex := jsLtChars_hex hplen hex1 hex2
  unfold embeddedTime
  by_cases hpe : th1 ++ tm1 ++ tl1 = th2 ++ tm2 ++ tl2
  · constructor
    · intro hlt
      rw [hpe] at hlt
      exact absurd hlt (lt_irrefl _)
    · intro _
      rw [hpe]
  · simp only [hpe, if_false]
    constructor
    · intro hlt
      exact hhex.mpr hlt
    · intro h
      exact Nat.le_of_lt (hhex.mp h)

/-- C3 counterexample: two valid v1 timeuuids with identical embedded
timestamps but different node fields — `write(u1) < write(u2)`
lexicographically although the embedded time of `u1` is not smaller than that
of `u2`, so the claimed equivalence fails. -/
theorem timeuuid_write_order_counterexample :
    jsLtChars (timeuuidWriteChars ("00000000-0000-1000-8000-000000000001".toList))
      (timeuuidWriteChars ("00000000-0000-1000-8000-000000000002".toList)) = true ∧
    embeddedTimeOfUuid ("00000000-0000-1000-8000-000000000001".toList) =
      embeddedTimeOfUuid ("00000000-0000-1000-8000-000000000002".toList) := by
  decide

/-- Witness for the amended C3 theorem at concrete uuids with strictly
increasing embedded timestamps. -/
theorem timeuuid_write_order_correspondence_witness :
    jsLtChars
      (timeuuidWriteChars (assembleV1 "00000001".toList "0000".toList "000".toList
        "8000".toList "000000000000".toList))
      (timeuuidWriteChars (assembleV1 "00000002".toList "0000".toList "000".toList
        "8000".toList "000000000000".toList)) = true :=
  (timeuuid_write_order_correspondence
    "00000001".toList "0000".toList "000".toList "8000".toList "000000000000".toList
    "00000002".toList "0000".toList "000".toList "8000".toList "000000000000".toList
    (by decide) (by decide) (by decide) (by decide) (by decide) (by decide)
    (by decide) (by decide)).1 (by decide)

/-! ## C1: the default put is an upsert -/

theorem except_bind_ok {ε α β : Type} (a : α) (f : α → Except ε β) :
    (Except.ok a >>= f) = f a := rfl

theorem except_pure_bind {ε α β : Type} (a : α) (f : α → Except ε β) :
    ((pure a : Except ε α) >>= f) = f a := rfl

theorem buildCondition_vals_ok (schema : SchemaInfo) (g e : Bool) (now : Int)
    (l : List (String × Value)) :
    ∃ r, buildCondition (l.map (fun kv => (kv.1, Pred.val kv.2))) schema g e now = .ok r := by
  unfold buildCondition
  suffices h : ∀ acc : List String × List Value,
      ∃ b, (l.map (fun kv => (kv.1, Pred.val kv.2))).foldlM
        (fun (acc : List String × List Value) (entry : String × Pred) => do
          let (cs, ps) ← predConjuncts schema e entry.1 entry.2
          return (acc.1 ++ cs, acc.2 ++ ps)) acc = .ok b by
    obtain ⟨b, hb⟩ := h ([], [])
    exact ⟨_, by rw [hb]; rfl⟩
  induction l with
  | nil => intro acc; exact ⟨acc, rfl⟩
  | cons kv rest ih =>
    intro acc
    obtain ⟨b, hb⟩ := ih (acc.1 ++ [fieldName kv.1 ++ " = ?"],
      acc.2 ++ if e then [schemaWrite schema kv.1 kv.2] else [])
    exact ⟨b, hb⟩

/-- `updateCondInput` without an `if` predicate is the primary-key map viewed
as bare equality predicates. -/
theorem updateCondInput_none (pk : List (String × Value)) :
    updateCondInput pk none = pk.map (fun kv => (kv.1, Pred.val kv.2)) := rfl

/-- C1 (amended): a put with no `if` condition compiles to an UPDATE on the
data table followed by an INSERT OR IGNORE into it — an upsert — whenever the
request writes at least one column beyond the primary key (`dataKVMap` larger
than `primaryKeyKVMap`); when only primary-key columns are written, the UPDATE
would have an empty SET clause and only the INSERT OR IGNORE is emitted. -/
theorem buildPutQuery_default_upsert (req : PutReq) (tableName : String)
    (schema : SchemaInfo) (ignoreStatic : Bool) (now : Int)
    (hif : req.ifCond = none) :
    ((dataKVMapOf req schema).length > (primaryKeyKVMap req schema).length →
      ∃ upd rest, buildPutQuery req tableName schema ignoreStatic now =
          .ok ([upd, buildInsertQuery tableName (dataKVMapOf req schema)] ++ rest) ∧
        (∃ setClause whereClause,
          upd.sql = "update [" ++ tableName ++ "_data] set " ++ setClause ++
            " where " ++ whereClause) ∧
        (∃ cols vals,
          (buildInsertQuery tableName (dataKVMapOf req schema)).sql =
            "insert or ignore into [" ++ tableName ++ "_data] (" ++ cols ++
              ") values (" ++ vals ++ ")")) ∧
    ((dataKVMapOf req schema).length ≤ (primaryKeyKVMap req schema).length →
      ∃ rest, buildPutQuery req tableName schema ignoreStatic now =
          .ok ([buildInsertQuery tableName (dataKVMapOf req schema)] ++ rest) ∧
        (∃ cols vals,
          (buildInsertQuery tableName (dataKVMapOf req schema)).sql =
            "insert or ignore into [" ++ tableName ++ "_data] (" ++ cols ++
              ") values (" ++ vals ++ ")")) := by
  obtain ⟨c, hc⟩ := buildCondition_vals_ok schema true true now (primaryKeyKVMap req schema)
  have hcond : buildCondition (updateCondInput (primaryKeyKVMap req schema) none)
      schema true true now = .ok c := by
    rw [updateCondInput_none]
    exact hc
  have hupd : buildUpdateQuery tableName schema (dataKVMapOf req schema)
      (updateCondInput (primaryKeyKVMap req schema) none) false now =
      .ok ⟨"update [" ++ tableName ++ "_data] set " ++
          String.intercalate ","
            (((dataKVMapOf req schema).filter (fun kv => kv.1 ∉ schema.iKeys)).map
              (fun kv => fieldName kv.1 ++ "= ?")) ++ " where " ++ c.1,
        ((dataKVMapOf req schema).filter (fun kv => kv.1 ∉ schema.iKeys)).map (·.2) ++ c.2⟩ := by
    simp [buildUpdateQuery, hcond]
  constructor
  · intro hlen
    have hres : buildPutQuery req tableName schema ignoreStatic now =
        .ok ([⟨"update [" ++ tableName ++ "_data] set " ++
            String.intercalate ","
              (((dataKVMapOf req schema).filter (fun kv => kv.1 ∉ schema.iKeys)).map
                (fun kv => fieldName kv.1 ++ "= ?")) ++ " where " ++ c.1,
          ((dataKVMapOf req schema).filter (fun kv => kv.1 ∉ schema.iKeys)).map (·.2) ++ c.2⟩,
          buildInsertQuery tableName (dataKVMapOf req schema)] ++
          (if (staticKVMapOf req schema).2 ∧ ¬ignoreStatic then
            [staticInsertStmt tableName (staticKVMapOf req schema).1] else [])) := by
      simp only [buildPutQuery, hif]
      rw [if_pos hlen]
      simp only [hupd, except_bind_ok, except_pure_bind]
      split <;> rfl
    exact ⟨_, _, hres, ⟨_, _, rfl⟩, ⟨_, _, rfl⟩⟩
  · intro hlen
    have hres : buildPutQuery req tableName schema ignoreStatic now =
        .ok ([buildInsertQuery tableName (dataKVMapOf req schema)] ++
          (if (staticKVMapOf req schema).2 ∧ ¬ignoreStatic then
            [staticInsertStmt tableName (staticKVMapOf req schema).1] else [])) := by
      simp only [buildPutQuery, hif]
      rw [if_neg (by omega)]
      simp only [except_bind_ok, except_pure_bind]
      split <;> rfl
    exact ⟨_, hres, ⟨_, _, rfl⟩⟩

/-- A minimal concrete schema (hash key `key`, descending range key `tid`, a
payload column `body`, and the injected `_exist_until`) used to witness the
query-builder theorems. -/
def schemaKV : SchemaInfo :=
  { attributes := [("key", "string"), ("tid", "string"), ("body", "string"),
      ("_exist_until", "timestamp")]
    iKeys := ["key", "tid"]
    iKeyMap := [("key", ⟨"key", "hash", ""⟩), ("tid", ⟨"tid", "range", "desc"⟩)]
    proj := ["key", "tid", "body", "_exist_until"] }

/-- Substring test used to state what a compiled SQL string does (not)
contain. -/
def listIsInfix (p l : List Char) : Bool :=
  (List.range (l.length + 1)).any (fun k => p.isPrefixOf (l.drop k))

/-- C1 counterexample: a put with no `if` condition whose attributes are
exactly the primary key compiles to a single INSERT OR IGNORE — no UPDATE
statement is emitted, so the claim that every no-`if` put emits both is
false. -/
theorem buildPutQuery_default_counterexample :
    buildPutQuery ⟨[("key", .str "k"), ("tid", .str "t")], none⟩ "T" schemaKV false 0 =
      .ok [⟨"insert or ignore into [T_data] (\x22key\x22,\x22tid\x22) values (?, ?)",
        [.str "k", .str "t"]⟩] := by
  rfl

/-- Witness for the amended C1 theorem: a put writing the non-key column
`body` emits the UPDATE and the INSERT OR IGNORE. -/
theorem buildPutQuery_default_upsert_witness :
    ∃ upd rest,
      buildPutQuery ⟨[("key", Value.str "k"), ("tid", Value.str "t"),
          ("body", Value.str "b")], none⟩ "T" schemaKV false 0 =
        .ok ([upd, buildInsertQuery "T" (dataKVMapOf
          ⟨[("key", Value.str "k"), ("tid", Value.str "t"), ("body", Value.str "b")], none⟩
          schemaKV)] ++ rest) ∧
      (∃ setClause whereClause,
        upd.sql = "update [" ++ "T" ++ "_data] set " ++ setClause ++ " where " ++ whereClause) ∧
      (∃ cols vals,
        (buildInsertQuery "T" (dataKVMapOf
            ⟨[("key", Value.str "k"), ("tid", Value.str "t"), ("body", Value.str "b")], none⟩
            schemaKV)).sql =
          "insert or ignore into [" ++ "T" ++ "_data] (" ++ cols ++ ") values (" ++ vals ++ ")") :=
  (buildPutQuery_default_upsert
    ⟨[("key", Value.str "k"), ("tid", Value.str "t"), ("body", Value.str "b")], none⟩
    "T" schemaKV false 0 rfl).1 (by decide)

/-! ## C2: the soft-delete gate -/

/-- C2 (amended): a compiled read condition ends in the conjunct
`("_exist_until" > ? OR "_exist_until" is null )` when
`includePreparedForDelete` is truthy and in `"_exist_until" is null` when it
is falsy; `buildGetQuery` passes an *unspecified* flag through unchanged, so
an absent flag behaves like `false`, not `true`; and under either gate a row
whose `_exist_until` is in the past (or merely set) fails the gate, so such
rows are never returned. -/
theorem buildCondition_soft_delete_gate :
    (∀ (pred : List (String × Pred)) (schema : SchemaInfo) (e : Bool) (now : Int)
        (r : String × List Value),
      buildCondition pred schema true e now = .ok r →
      ∃ cs, r.1 = String.intercalate " AND "
        (cs ++ ["(\x22_exist_until\x22 > ? OR \x22_exist_until\x22 is null )"])) ∧
    (∀ (pred : List (String × Pred)) (schema : SchemaInfo) (e : Bool) (now : Int)
        (r : String × List Value),
      buildCondition pred schema false e now = .ok r →
      ∃ cs, r.1 = String.intercalate " AND " (cs ++ ["\x22_exist_until\x22 is null"])) ∧
    (∀ (tableName : String) (query : GetQuery) (schema : SchemaInfo),
      buildGetQuery tableName query schema none =
        buildGetQuery tableName query schema (some false)) ∧
    (∀ (t now : Int), t ≤ now →
      gateDefaultHolds (some t) now = false ∧ gateNullHolds (some t) = false) := by
  refine ⟨?_, ?_, ?_, ?_⟩
  · intro pred schema e now r h
    unfold buildCondition at h
    cases hf : pred.foldlM (fun (acc : List String × List Value) (entry : String × Pred) => do
        let (cs, ps) ← predConjuncts schema e entry.1 entry.2
        return (acc.1 ++ cs, acc.2 ++ ps)) ([], []) with
    | error err => rw [hf] at h; exact absurd h (by simp [Except.bind, Bind.bind])
    | ok base =>
      rw [hf] at h
      refine ⟨base.1, ?_⟩
      have : r = (String.intercalate " AND "
          (base.1 ++ ["(" ++ fieldName "_exist_until" ++ " > ? OR "
            ++ fieldName "_exist_until" ++ " is null )"]),
          base.2 ++ (if e then [Value.int now] else [])) := by
        cases h; rfl
      rw [this]
      rfl
  · intro pred schema e now r h
    unfold buildCondition at h
    cases hf : pred.foldlM (fun (acc : List String × List Value) (entry : String × Pred) => do
        let (cs, ps) ← predConjuncts schema e entry.1 entry.2
        return (acc.1 ++ cs, acc.2 ++ ps)) ([], []) with
    | error err => rw [hf] at h; exact absurd h (by simp [Except.bind, Bind.bind])
    | ok base =>
      rw [hf] at h
      refine ⟨base.1, ?_⟩
      have : r = (String.intercalate " AND "
          (base.1 ++ [fieldName "_exist_until" ++ " is null"]), base.2) := by
        cases h; rfl
      rw [this]
      rfl
  · intro tableName query schema
    rfl
  · intro t now h
    constructor
    · simp [gateDefaultHolds]
      omega
    · simp [gateNullHolds]

/-- C2 counterexample: compiling a get with `includePreparedForDelete` left
unspecified produces the `is null` gate, not the claimed
`(_exist_until > now OR _exist_until IS NULL)` disjunction. -/
theorem buildCondition_gate_unspecified_counterexample :
    buildGetQuery "T" ⟨some [("key", Pred.val (.str "k"))], none, false, none, none, none, none⟩
        schemaKV none =
      .ok ("select \x22key\x22,\x22tid\x22,\x22body\x22,\x22_exist_until\x22 from [T_data]"
        ++ " where \x22key\x22 = ? AND \x22_exist_until\x22 is null  order by \x22tid\x22 desc ") ∧
    listIsInfix "(\x22_exist_until\x22 > ?".toList
      ("select \x22key\x22,\x22tid\x22,\x22body\x22,\x22_exist_until\x22 from [T_data]"
        ++ " where \x22key\x22 = ? AND \x22_exist_until\x22 is null  order by \x22tid\x22 desc ").toList
      = false := by
  constructor
  · rfl
  · decide

/-- Witness for the amended C2 theorem: a concrete condition compiled with a
truthy gate carries the disjunctive conjunct, and a row with
`_exist_until = 5` fails both gates at `now = 10`. -/
theorem buildCondition_soft_delete_gate_witness :
    (∃ cs, (("\x22key\x22 = ? AND (\x22_exist_until\x22 > ? OR \x22_exist_until\x22 is null )",
        ([] : List Value)) : String × List Value).1 =
      String.intercalate " AND "
        (cs ++ ["(\x22_exist_until\x22 > ? OR \x22_exist_until\x22 is null )"])) ∧
    (gateDefaultHolds (some 5) 10 = false ∧ gateNullHolds (some 5) = false) :=
  ⟨(buildCondition_soft_delete_gate).1 [("key", Pred.val (.str "k"))] schemaKV false 0 _ rfl,
   (buildCondition_soft_delete_gate).2.2.2 5 10 (by omega)⟩

/-! ## C7: order validation -/

/-- Whether an order entry reverses the declared order of its (range) key. -/
def shouldBeReversedOf (iKeyMap : List (String × IndexElem)) (kd : String × String) : Bool :=
  match getKey iKeyMap kd.1 with
  | some elem => decide (kd.2 ≠ elem.order)
  | none => false

/-- An order entry the legacy validator accepts in isolation: a valid
direction on a range key. -/
def validOrderEntry (iKeyMap : List (String × IndexElem)) (kd : String × String) : Prop :=
  (kd.2 = "asc" ∨ kd.2 = "desc") ∧
    ∃ elem, getKey iKeyMap kd.1 = some elem ∧ elem.type = "range"

theorem checkOrderGo_ok_iff (iKeyMap : List (String × IndexElem)) :
    ∀ (order : List (String × String)) (acc : Option Bool),
    (∃ res, checkOrderGo iKeyMap acc order = .ok res) ↔
    ((∀ kd ∈ order, validOrderEntry iKeyMap kd) ∧
     (∀ kd1 ∈ order, ∀ kd2 ∈ order,
        shouldBeReversedOf iKeyMap kd1 = shouldBeReversedOf iKeyMap kd2) ∧
     (∀ r, acc = some r → ∀ kd ∈ order, shouldBeReversedOf iKeyMap kd = r)) := by
  intro order
  induction order with
  | nil =>
    intro acc
    simp [checkOrderGo]
  | cons kd rest ih =>
    intro acc
    by_cases hdir : kd.2 ≠ "asc" ∧ kd.2 ≠ "desc"
    · simp only [checkOrderGo, if_pos hdir]
      constructor
      · rintro ⟨res, h⟩
        exact absurd h (by simp)
      · rintro ⟨hv, -, -⟩
        obtain ⟨hd, -⟩ := hv kd (by simp)
        exact absurd hd (by tauto)
    · rw [not_and_or, not_not, not_not] at hdir
      have hdir' : ¬(kd.2 ≠ "asc" ∧ kd.2 ≠ "desc") := by tauto
      cases hk : getKey iKeyMap kd.1 with
      | none =>
        simp only [checkOrderGo, if_neg hdir', hk]
        constructor
        · rintro ⟨res, h⟩
          exact absurd h (by simp)
        · rintro ⟨hv, -, -⟩
          obtain ⟨-, elem, helem, -⟩ := hv kd (by simp)
          rw [hk] at helem
          exact absurd helem (by simp)
      | some elem =>
        by_cases ht : elem.type = "range"
        · have ht' : ¬(elem.type ≠ "range") := by simpa using ht
          have hrev : shouldBeReversedOf iKeyMap kd = decide (kd.2 ≠ elem.order) := by
            simp [shouldBeReversedOf, hk]
          cases acc with
          | none =>
            simp only [checkOrderGo, if_neg hdir', hk, if_neg ht']
            rw [ih (some (decide (kd.2 ≠ elem.order)))]
            constructor
            · rintro ⟨hv, -, hacc⟩
              have huni : ∀ x ∈ kd :: rest,
                  shouldBeReversedOf iKeyMap x = decide (kd.2 ≠ elem.order) := by
                intro x hx
                rcases List.mem_cons.mp hx with rfl | hx
                · exact hrev
                · exact hacc _ rfl x hx
              refine ⟨?_, ?_, ?_⟩
              · intro x hx
                rcases List.mem_cons.mp hx with rfl | hx
                · exact ⟨hdir, elem, hk, ht⟩
                · exact hv x hx
              · intro x hx y hy
                rw [huni x hx, huni y hy]
              · intro r hr
                cases hr
            · rintro ⟨hv, hpair, -⟩
              refine ⟨?_, ?_, ?_⟩
              · intro x hx
                exact hv x (by simp [hx])
              · intro x hx y hy
                exact hpair x (by simp [hx]) y (by simp [hy])
              · rintro r rfl1 x hx
                injection rfl1 with hr
                rw [← hr, ← hrev]
                exact hpair x (by simp [hx]) kd (by simp)
          | some r =>
            by_cases hr : r = decide (kd.2 ≠ elem.order)
            · have hr' : ¬(r ≠ decide (kd.2 ≠ elem.order)) := not_not_intro hr
              simp only [checkOrderGo, if_neg hdir', hk, if_neg ht', if_neg hr']
              rw [ih (some r)]
              constructor
              · rintro ⟨hv, -, hacc⟩
                have huni : ∀ x ∈ kd :: rest, shouldBeReversedOf iKeyMap x = r := by
                  intro x hx
                  rcases List.mem_cons.mp hx with rfl | hx
                  · rw [hrev, hr]
                  · exact hacc _ rfl x hx
                refine ⟨?_, ?_, ?_⟩
                · intro x hx
                  rcases List.mem_cons.mp hx with rfl | hx
                  · exact ⟨hdir, elem, hk, ht⟩
                  · exact hv x hx
                · intro x hx y hy
                  rw [huni x hx, huni y hy]
                · rintro r' rfl1 x hx
                  injection rfl1 with hr2
                  rw [← hr2]
                  exact huni x hx
              · rintro ⟨hv, hpair, hacc⟩
                refine ⟨?_, ?_, ?_⟩
                · intro x hx
                  exact hv x (by simp [hx])
                · intro x hx y hy
                  exact hpair x (by simp [hx]) y (by simp [hy])
                · rintro r' rfl1 x hx
                  injection rfl1 with hr2
                  subst hr2
                  exact hacc r rfl x (by simp [hx])
            · have hr' : r ≠ decide (kd.2 ≠ elem.order) := hr
              simp only [checkOrderGo, if_neg hdir', hk, if_neg ht', if_pos hr']
              constructor
              · rintro ⟨res, h⟩
                exact absurd h (by simp)
              · rintro ⟨-, -, hacc⟩
                have := hacc r rfl kd (by simp)
                rw [hrev] at this
                exact (hr this.symm).elim
        · have ht' : elem.type ≠ "range" := ht
          simp only [checkOrderGo, if_neg hdir', hk, if_pos ht']
          constructor
          · rintro ⟨res, h⟩
            exact absurd h (by simp)
          · rintro ⟨hv, -, -⟩
            obtain ⟨-, elem', helem', ht2⟩ := hv kd (by simp)
            rw [hk] at helem'
            injection helem' with he
            subst he
            exact (ht ht2).elim

/-- C7 (amended): the *legacy* query compiler's order validation accepts an
order mapping exactly when every ordered attribute is a range key carrying a
valid direction and all entries agree on whether they reverse the declared
range orders; any other order request makes it throw.  (The current
`constructOrder` performs no such validation — see the counterexample.) -/
theorem checkOrderLegacy_ok_iff (order : List (String × String))
    (iKeyMap : List (String × IndexElem)) :
    (∃ res, checkOrderLegacy order iKeyMap = .ok res) ↔
    ((∀ kd ∈ order, validOrderEntry iKeyMap kd) ∧
     (∀ kd1 ∈ order, ∀ kd2 ∈ order,
        shouldBeReversedOf iKeyMap kd1 = shouldBeReversedOf iKeyMap kd2)) := by
  unfold checkOrderLegacy
  rw [checkOrderGo_ok_iff]
  constructor
  · rintro ⟨hv, hpair, -⟩
    exact ⟨hv, hpair⟩
  · rintro ⟨hv, hpair⟩
    exact ⟨hv, hpair, by rintro r ⟨⟩⟩

/-- A schema with two range keys (`a` declared ascending, `b` descending),
for exercising order handling. -/
def schemaTwoRange : SchemaInfo :=
  { attributes := [("key", "string"), ("a", "string"), ("b", "string"),
      ("_exist_until", "timestamp")]
    iKeys := ["key", "a", "b"]
    iKeyMap := [("key", ⟨"key", "hash", ""⟩), ("a", ⟨"a", "range", "asc"⟩),
      ("b", ⟨"b", "range", "desc"⟩)]
    proj := ["key", "a", "b"] }

/-- C7 counterexample: an order request that reverses `a` but not `b` is
neither uniformly same nor uniformly reversed, yet the current query
compiler's `constructOrder` emits it without any error — while the legacy
validator rejects exactly this input.  The current compiler therefore does
not fail with `bad_request` on inconsistent orders. -/
theorem constructOrder_no_validation_counterexample :
    constructOrder (some [("a", "desc"), ("b", "desc")]) schemaTwoRange =
      " order by \x22a\x22 desc,\x22b\x22 desc " ∧
    (∃ err, checkOrderLegacy [("a", "desc"), ("b", "desc")] schemaTwoRange.iKeyMap =
      .error err) := by
  exact ⟨rfl, _, rfl⟩

/-- Witness for the amended C7 theorem: a single valid range-key order entry
passes the legacy validation. -/
theorem checkOrderLegacy_ok_iff_witness :
    ∃ res, checkOrderLegacy [("tid", "asc")] schemaKV.iKeyMap = .ok res :=
  (checkOrderLegacy_ok_iff [("tid", "asc")] schemaKV.iKeyMap).mpr
    ⟨by
      intro kd hkd
      rcases List.mem_singleton.mp hkd with rfl
      exact ⟨Or.inl rfl, ⟨"tid", "range", "desc"⟩, rfl, rfl⟩,
     by
      intro x hx y hy
      rcases List.mem_singleton.mp hx with rfl
      rcases List.mem_singleton.mp hy with rfl
      rfl⟩

/-! ## C10: prepared-statement cache keys -/

/-- Two predicate operands of the same shape: identical except for the
concrete operand values that `extractConditionParams` nulls out.  (For a
leading `between`, both arguments must be two-element arrays; entries after a
leading `between` are not nulled, so they must agree.) -/
def predShapeEq : Pred → Pred → Prop
  | .val _, .val _ => True
  | .ops [], .ops [] => True
  | .ops ((o1, a1) :: r1), .ops ((o2, a2) :: r2) =>
    o1 = o2 ∧
    (if jsToLower o1 = "between" then
      (∃ x y, a1 = .pair x y) ∧ (∃ x y, a2 = .pair x y) ∧ r1 = r2
    else
      r1.map Prod.fst = r2.map Prod.fst)
  | _, _ => False

theorem extractPredNull_shape (schema : SchemaInfo) (k : String) {p1 p2 : Pred}
    (h : predShapeEq p1 p2) :
    (extractPredNull schema k p1).2 = (extractPredNull schema k p2).2 := by
  match p1, p2 with
  | .val v1, .val v2 => rfl
  | .ops [], .ops [] => rfl
  | .val _, .ops _ => exact absurd h (by simp [predShapeEq])
  | .ops _, .val _ => exact absurd h (by simp [predShapeEq])
  | .ops [], .ops (_ :: _) => exact absurd h (by simp [predShapeEq])
  | .ops (_ :: _), .ops [] => exact absurd h (by simp [predShapeEq])
  | .ops ((o1, a1) :: r1), .ops ((o2, a2) :: r2) =>
    obtain ⟨ho, hrest⟩ := h
    subst ho
    by_cases hb : jsToLower o1 = "between"
    · rw [if_pos hb] at hrest
      obtain ⟨⟨x1, y1, ha1⟩, ⟨x2, y2, ha2⟩, hr⟩ := hrest
      subst ha1
      subst ha2
      subst hr
      simp [extractPredNull, hb]
    · rw [if_neg hb] at hrest
      simp only [extractPredNull, if_neg hb]
      have em : ∀ l : List (String × Value),
          l.map (fun kv => (kv.1, Value.null)) =
            (l.map Prod.fst).map (fun s => (s, Value.null)) := by
        intro l
        rw [List.map_map]
        rfl
      congr 1
      rw [em ((o1, a1) :: r1), em ((o1, a2) :: r2)]
      simp only [List.map_cons]
      rw [hrest]

theorem extractConditionParams_shape (schema : SchemaInfo)
    {l1 l2 : List (String × Pred)}
    (h : List.Forall₂ (fun a b => a.1 = b.1 ∧ predShapeEq a.2 b.2) l1 l2) :
    (extractConditionParams schema l1).2 = (extractConditionParams schema l2).2 := by
  unfold extractConditionParams
  suffices hs : ∀ (acc1 acc2 : List Value × List (String × Pred)), acc1.2 = acc2.2 →
      (l1.foldl (fun acc kv =>
        let r := extractPredNull schema kv.1 kv.2
        (acc.1 ++ r.1, acc.2 ++ [(kv.1, r.2)])) acc1).2 =
      (l2.foldl (fun acc kv =>
        let r := extractPredNull schema kv.1 kv.2
        (acc.1 ++ r.1, acc.2 ++ [(kv.1, r.2)])) acc2).2 by
    exact hs ([], []) ([], []) rfl
  induction h with
  | nil =>
    intro acc1 acc2 ha
    exact ha
  | cons hab hrest ih =>
    intro acc1 acc2 ha
    apply ih
    obtain ⟨hk, hp⟩ := hab
    simp only [ha, hk, extractPredNull_shape schema _ hp]

/-- C10: two get requests identical except for the concrete predicate operand
values produce the same request object after `extractGetParams` nulls the
operands out, and hence the same `_createGetQuery` cache key; they differ only
in the extracted parameter vectors. -/
theorem createGetQueryKey_shape_invariant (tableName : String) (schema : SchemaInfo)
    (ipd : Option Bool) (now : Int) (q1 q2 : GetQuery)
    (l1 l2 : List (String × Pred))
    (h1 : q1.attributes = some l1) (h2 : q2.attributes = some l2)
    (hshape : List.Forall₂ (fun a b => a.1 = b.1 ∧ predShapeEq a.2 b.2) l1 l2)
    (hproj : q1.proj = q2.proj) (hdist : q1.distinct = q2.distinct)
    (horder : q1.order = q2.order) (hlimit : q1.limit = q2.limit)
    (hnext : q1.next = q2.next)
    (hipd : q1.includePreparedForDelete = q2.includePreparedForDelete) :
    (extractGetParams q1 schema ipd now).2 = (extractGetParams q2 schema ipd now).2 ∧
    createGetQueryKey tableName q1 schema ipd now =
      createGetQueryKey tableName q2 schema ipd now := by
  have hmain : (extractGetParams q1 schema ipd now).2 = (extractGetParams q2 schema ipd now).2 := by
    cases q1 with
    | mk a1 p1 d1 o1 li1 n1 i1 =>
      cases q2 with
      | mk a2 p2 d2 o2 li2 n2 i2 =>
        simp only at h1 h2 hproj hdist horder hlimit hnext hipd
        subst h1
        subst h2
        subst hproj
        subst hdist
        subst horder
        subst hlimit
        subst hnext
        subst hipd
        simp only [extractGetParams, extractConditionParams_shape schema hshape]
        split <;> rfl
  exact ⟨hmain, by unfold createGetQueryKey; rw [hmain]⟩

/-! ## C9: engine SQLITE_ERROR becomes an empty result -/

/-- C9: an engine error carrying `cause.code === 'SQLITE_ERROR'` (for example
a select on a missing table) makes `_get` resolve with the empty result
`{count: 0, items: []}` instead of propagating. -/
theorem dbGet_sqlite_error_empty (schema : SchemaInfo) (req : GetQuery)
    (err : SqlError) (c : SqlCause) (hc : err.cause = some c)
    (hcode : c.code = "SQLITE_ERROR") :
    dbGetResult schema req (.error err) = .ok ⟨0, [], none⟩ := by
  simp [dbGetResult, hc, hcode]

/-- Witness for C9: the driver's `SQLITE_ERROR` on a missing table. -/
theorem dbGet_sqlite_error_empty_witness :
    dbGetResult schemaKV
      ⟨some [("key", Pred.val (.str "k"))], none, false, none, none, none, none⟩
      (.error ⟨some ⟨"SQLITE_ERROR"⟩, "SQLITE_ERROR: no such table: T_data"⟩) =
      .ok ⟨0, [], none⟩ :=
  dbGet_sqlite_error_empty schemaKV
    ⟨some [("key", Pred.val (.str "k"))], none, false, none, none, none, none⟩
    ⟨some ⟨"SQLITE_ERROR"⟩, "SQLITE_ERROR: no such table: T_data"⟩
    ⟨"SQLITE_ERROR"⟩ rfl rfl

/-! ## C8: createTable idempotence on equal hashes -/

/-- C8: when the stored schema's derived hash equals the proposed one,
`createTable` short-circuits to `{status: 201}` with no migration, DDL, or
meta-row rewrite. -/
theorem createTable_idempotent_equal_hash (cur prop : SchemaRec)
    (h : cur.hash = prop.hash) :
    createTableModel (some cur) prop = .ok ([], 201) := by
  simp [createTableModel, h]

/-- A concrete stored schema record. -/
def schemaRecKV : SchemaRec :=
  { table := "T"
    attributes := [("key", "string"), ("tid", "timeuuid"), ("body", "blob")]
    index := [⟨"key", "hash", ""⟩, ⟨"tid", "range", "desc"⟩]
    secondaryIndexes := []
    version := 1
    hash := "h1" }

/-- Witness for C8 at a concrete schema record. -/
theorem createTable_idempotent_equal_hash_witness :
    createTableModel (some schemaRecKV) schemaRecKV = .ok ([], 201) :=
  createTable_idempotent_equal_hash schemaRecKV schemaRecKV rfl

/-! ## C5: the migrator validates or throws before any DDL -/

/-- C5: constructing a `SchemaMigrator` runs every handler's `validate` before
any DDL can be issued (the migrator object, sole bearer of `migrate()`, only
exists on success): it throws whenever the proposed version is not strictly
greater, whenever the index diff adds or removes a non-static element, and
whenever an existing column's index type is changed; and a successfully
constructed migrator implies the whole diff validated. -/
theorem schemaMigrator_validates_or_throws (cur prop : SchemaRec) :
    (prop.version ≤ cur.version → ∃ e, schemaMigratorNew cur prop = .error e) ∧
    ((∃ i ∈ addIndexOf cur prop, i.type ≠ "static") ∨
        (∃ i ∈ delIndexOf cur prop, i.type ≠ "static") →
      ∃ e, schemaMigratorNew cur prop = .error e) ∧
    (alteredColumnsOf cur prop ≠ [] → ∃ e, schemaMigratorNew cur prop = .error e) ∧
    (∀ m, schemaMigratorNew cur prop = .ok m → migratorValidate cur prop = .ok ()) := by
  have hm : migratorValidate cur prop = (indexValidate cur prop >>= fun _ =>
      secondaryIndexesValidate cur.secondaryIndexes prop.secondaryIndexes >>= fun _ =>
      versionValidate cur.version prop.version) := rfl
  refine ⟨?_, ?_, ?_, ?_⟩
  · intro hv
    unfold schemaMigratorNew
    rw [hm]
    cases hidx : indexValidate cur prop with
    | error e => exact ⟨e, rfl⟩
    | ok u =>
      cases hsec : secondaryIndexesValidate cur.secondaryIndexes prop.secondaryIndexes with
      | error e => exact ⟨e, rfl⟩
      | ok u2 =>
        have : versionValidate cur.version prop.version =
            .error "new version must be higher than previous" := by
          unfold versionValidate
          rw [if_pos (by omega)]
        rw [except_bind_ok, except_bind_ok, this]
        exact ⟨_, rfl⟩
  · intro hv
    unfold schemaMigratorNew
    rw [hm]
    have hany : (addIndexOf cur prop).any (fun i => i.type ≠ "static")
        ∨ (delIndexOf cur prop).any (fun i => i.type ≠ "static") := by
      rcases hv with ⟨i, hi, ht⟩ | ⟨i, hi, ht⟩
      · exact Or.inl (List.any_eq_true.mpr ⟨i, hi, by simpa using ht⟩)
      · exact Or.inr (List.any_eq_true.mpr ⟨i, hi, by simpa using ht⟩)
    have : indexValidate cur prop = .error "Only static index additions and removals supported" := by
      unfold indexValidate
      rw [if_pos (by simpa using hany)]
    rw [this]
    exact ⟨_, rfl⟩
  · intro hv
    unfold schemaMigratorNew
    rw [hm]
    cases hidx : indexValidate cur prop with
    | error e => exact ⟨e, rfl⟩
    | ok u =>
      unfold indexValidate at hidx
      by_cases hc1 : (addIndexOf cur prop).any (fun i => i.type ≠ "static")
          ∨ (delIndexOf cur prop).any (fun i => i.type ≠ "static")
      · rw [if_pos (by simpa using hc1)] at hidx
        cases hidx
      · rw [if_neg (by simpa using hc1), if_pos hv] at hidx
        cases hidx
  · intro m hok
    unfold schemaMigratorNew at hok
    cases hval : migratorValidate cur prop with
    | error e => rw [hval] at hok; cases hok
    | ok u => cases u; rfl

/-- Witness for C5: a proposed schema with an unchanged version, a new range
index on an existing column — the constructor throws (all three error
conditions hold at once on this input, the theorem is applied to the version
one). -/
theorem schemaMigrator_validates_or_throws_witness :
    ∃ e, schemaMigratorNew schemaRecKV
      { schemaRecKV with index := schemaRecKV.index ++ [⟨"body", "range", "asc"⟩] } =
      .error e :=
  (schemaMigrator_validates_or_throws schemaRecKV
    { schemaRecKV with index := schemaRecKV.index ++ [⟨"body", "range", "asc"⟩] }).1
    (by decide)

/-- Witness for C10: two gets identical but for the equality operand on `key`
and the `between` bounds on `tid` share one cache key. -/
theorem createGetQueryKey_shape_invariant_witness :
    (extractGetParams
        ⟨some [("key", Pred.val (.str "k1")),
          ("tid", Pred.ops [("between", .pair (.str "a") (.str "b"))])],
         none, false, none, some 5, none, none⟩ schemaKV (some true) 42).2 =
      (extractGetParams
        ⟨some [("key", Pred.val (.str "k2")),
          ("tid", Pred.ops [("between", .pair (.str "c") (.str "d"))])],
         none, false, none, some 5, none, none⟩ schemaKV (some true) 42).2 ∧
    createGetQueryKey "T"
        ⟨some [("key", Pred.val (.str "k1")),
          ("tid", Pred.ops [("between", .pair (.str "a") (.str "b"))])],
         none, false, none, some 5, none, none⟩ schemaKV (some true) 42 =
      createGetQueryKey "T"
        ⟨some [("key", Pred.val (.str "k2")),
          ("tid", Pred.ops [("between", .pair (.str "c") (.str "d"))])],
         none, false, none, some 5, none, none⟩ schemaKV (some true) 42 :=
  createGetQueryKey_shape_invariant "T" schemaKV (some true) 42 _ _ _ _ rfl rfl
    (List.Forall₂.cons ⟨rfl, trivial⟩
      (List.Forall₂.cons
        ⟨rfl, by
          show predShapeEq (Pred.ops [("between", .pair (.str "a") (.str "b"))])
            (Pred.ops [("between", .pair (.str "c") (.str "d"))])
          unfold predShapeEq
          refine ⟨rfl, ?_⟩
          rw [if_pos (show jsToLower "between" = "between" by decide)]
          exact ⟨⟨_, _, rfl⟩, ⟨_, _, rfl⟩, rfl⟩⟩
        List.Forall₂.nil))
    rfl rfl rfl rfl rfl rfl

/-! ## C6: the transactional run -/

theorem beginImmediate_begin_count (oracle : EngineOracle) (rand : Nat → Nat) :
    ∀ (remaining attempt : Nat),
      ((beginImmediate oracle rand attempt remaining).1.count .begin) ≤ remaining + 1 := by
  intro remaining
  induction remaining with
  | zero =>
    intro attempt
    unfold beginImmediate
    cases oracle.beginRes attempt <;> simp [List.count_cons]
  | succ r ih =>
    intro attempt
    unfold beginImmediate
    cases oracle.beginRes attempt with
    | ok => simp [List.count_cons]
    | fail e => simp [List.count_cons]
    | busy =>
      have := ih (attempt + 1)
      simp only [List.count_cons,
        show (RunEv.sleep (rand attempt) == RunEv.begin) = false from rfl,
        show (RunEv.begin == RunEv.begin) = true from rfl]
      simp only [Bool.false_eq_true, if_false, if_true, reduceIte]
      omega

theorem beginImmediate_sleep_mem (oracle : EngineOracle) (rand : Nat → Nat) :
    ∀ (remaining attempt ms : Nat),
      RunEv.sleep ms ∈ (beginImmediate oracle rand attempt remaining).1 →
      ∃ i, ms = rand i := by
  intro remaining
  induction remaining with
  | zero =>
    intro attempt ms h
    unfold beginImmediate at h
    cases hb : oracle.beginRes attempt <;> rw [hb] at h <;> simp at h
  | succ r ih =>
    intro attempt ms h
    unfold beginImmediate at h
    cases hb : oracle.beginRes attempt <;> rw [hb] at h
    · simp at h
    · simp only [List.mem_cons] at h
      rcases h with h | h | h
      · cases h
      · exact ⟨attempt, by injection h⟩
      · exact ih (attempt + 1) ms h
    · simp at h

theorem beginImmediate_only_begin_sleep (oracle : EngineOracle) (rand : Nat → Nat) :
    ∀ (remaining attempt : Nat) (ev : RunEv),
      ev ∈ (beginImmediate oracle rand attempt remaining).1 →
      ev = .begin ∨ ∃ ms, ev = .sleep ms := by
  intro remaining
  induction remaining with
  | zero =>
    intro attempt ev h
    unfold beginImmediate at h
    cases hb : oracle.beginRes attempt <;> rw [hb] at h <;> simp at h <;> simp [h]
  | succ r ih =>
    intro attempt ev h
    unfold beginImmediate at h
    cases hb : oracle.beginRes attempt <;> rw [hb] at h
    · simp at h; simp [h]
    · simp only [List.mem_cons] at h
      rcases h with rfl | rfl | h
      · exact Or.inl rfl
      · exact Or.inr ⟨rand attempt, rfl⟩
      · exact ih (attempt + 1) ev h
    · simp at h; simp [h]

theorem execQueries_all_ok (oracle : EngineOracle) :
    ∀ (l : List String) (start : Nat),
      (∀ i, i < l.length → oracle.execRes (start + i) = none) →
      execQueries oracle l start = (l.map RunEv.exec, .ok ()) := by
  intro l
  induction l with
  | nil => intro start _; rfl
  | cons q qs ih =>
    intro start h
    have h0 : oracle.execRes start = none := by
      have := h 0 (by simp)
      simpa using this
    unfold execQueries
    rw [h0, ih (start + 1) (fun i hi => by
      have := h (i + 1) (by simp; omega)
      rwa [show start + (i + 1) = start + 1 + i by omega] at this)]
    rfl

theorem execQueries_first_fail (oracle : EngineOracle) :
    ∀ (l : List String) (start j : Nat) (e : String),
      j < l.length →
      oracle.execRes (start + j) = some e →
      (∀ i, i < j → oracle.execRes (start + i) = none) →
      execQueries oracle l start = ((l.take (j + 1)).map RunEv.exec, .error e) := by
  intro l
  induction l with
  | nil => intro start j e hj; simp at hj
  | cons q qs ih =>
    intro start j e hj he hmin
    cases j with
    | zero =>
      unfold execQueries
      rw [show start + 0 = start from rfl] at he
      rw [he]
      rfl
    | succ j' =>
      have h0 : oracle.execRes start = none := by
        have := hmin 0 (by omega)
        simpa using this
      unfold execQueries
      rw [h0, ih (start + 1) j' e (by simpa using hj)
        (by rwa [show start + 1 + j' = start + (j' + 1) by omega])
        (fun i hi => by
          have := hmin (i + 1) (by omega)
          rwa [show start + (i + 1) = start + 1 + i by omega] at this)]
      rfl

theorem execQueries_only_exec (oracle : EngineOracle) :
    ∀ (l : List String) (start : Nat) (ev : RunEv),
      ev ∈ (execQueries oracle l start).1 → ∃ q, ev = .exec q := by
  intro l
  induction l with
  | nil => intro start ev h; simp [execQueries] at h
  | cons q qs ih =>
    intro start ev h
    unfold execQueries at h
    cases hr : oracle.execRes start <;> rw [hr] at h
    · simp only [List.mem_cons] at h
      rcases h with rfl | h
      · exact ⟨q, rfl⟩
      · exact ih (start + 1) ev h
    · simp at h
      exact ⟨q, h⟩

theorem run_trace_begin_count_zero (oracle : EngineOracle) (l : List String) (start : Nat) :
    (execQueries oracle l start).1.count RunEv.begin = 0 := by
  rw [List.count_eq_zero]
  intro hmem
  obtain ⟨q, hq⟩ := execQueries_only_exec oracle l start _ hmem
  cases hq

theorem run_trace_no_sleep_exec (oracle : EngineOracle) (l : List String) (start ms : Nat) :
    RunEv.sleep ms ∉ (execQueries oracle l start).1 := by
  intro hmem
  obtain ⟨q, hq⟩ := execQueries_only_exec oracle l start _ hmem
  cases hq

/-- Shape of a `run` trace: the acquire, then the begin/sleep retry prefix,
then a tail holding no begin and no sleep events. -/
theorem wrapperRun_events (retryLimit : Nat) (rand : Nat → Nat)
    (oracle : EngineOracle) (queries : List (Option Stmt)) :
    ∃ tail, (wrapperRun retryLimit rand oracle queries).1 =
      .acquire :: (beginImmediate oracle rand 0 retryLimit).1 ++ tail ∧
      tail.count .begin = 0 ∧ (∀ ms, RunEv.sleep ms ∉ tail) := by
  have hcx := run_trace_begin_count_zero oracle ((filteredQueries queries).map (·.sql)) 0
  have hnx := run_trace_no_sleep_exec oracle ((filteredQueries queries).map (·.sql)) 0
  unfold wrapperRun
  dsimp only []
  cases hres : (beginImmediate oracle rand 0 retryLimit).2 with
  | error e =>
    refine ⟨[.release], rfl, rfl, ?_⟩
    intro ms h
    simp at h
  | ok u =>
    cases hex : (execQueries oracle ((filteredQueries queries).map (·.sql)) 0).2 with
    | error e =>
      refine ⟨(execQueries oracle ((filteredQueries queries).map (·.sql)) 0).1
        ++ [.rollback, .release], by simp [List.append_assoc], ?_, ?_⟩
      · simp only [List.count_append, hcx]
        rfl
      · intro ms h
        simp only [List.mem_append] at h
        rcases h with h | h
        · exact hnx ms h
        · simp at h
    | ok u2 =>
      cases oracle.commitRes with
      | none =>
        refine ⟨(execQueries oracle ((filteredQueries queries).map (·.sql)) 0).1
          ++ [.commit, .release], by simp [List.append_assoc], ?_, ?_⟩
        · simp only [List.count_append, hcx]
          rfl
        · intro ms h
          simp only [List.mem_append] at h
          rcases h with h | h
          · exact hnx ms h
          · simp at h
      | some e =>
        refine ⟨(execQueries oracle ((filteredQueries queries).map (·.sql)) 0).1
          ++ [.commit, .release], by simp [List.append_assoc], ?_, ?_⟩
        · simp only [List.count_append, hcx]
          rfl
        · intro ms h
          simp only [List.mem_append] at h
          rcases h with h | h
          · exact hnx ms h
          · simp at h

/-- C6: `run(queries)` acquires the writer connection and issues
`begin immediate`, retrying at most `retry_limit` times with a jittered
1..`retry_delay` ms sleep before each retry; once the transaction is open it
executes exactly the filtered queries in declared order and commits; the first
failing statement aborts the sequence, and the call rolls back, releases the
connection, and re-raises that error. -/
theorem wrapperRun_spec (retryLimit retryDelay : Nat) (rand : Nat → Nat)
    (oracle : EngineOracle) (queries : List (Option Stmt))
    (hrand : ∀ i, 1 ≤ rand i ∧ rand i ≤ retryDelay) :
    ((wrapperRun retryLimit rand oracle queries).1.count .begin ≤ retryLimit + 1) ∧
    (∀ ms, RunEv.sleep ms ∈ (wrapperRun retryLimit rand oracle queries).1 →
      1 ≤ ms ∧ ms ≤ retryDelay) ∧
    ((wrapperRun retryLimit rand oracle queries).1.head? = some .acquire) ∧
    (∀ bevs, beginImmediate oracle rand 0 retryLimit = (bevs, .ok ()) →
      (∀ i, i < (filteredQueries queries).length → oracle.execRes i = none) →
      oracle.commitRes = none →
      wrapperRun retryLimit rand oracle queries =
        (.acquire :: bevs ++ ((filteredQueries queries).map (fun q => RunEv.exec q.sql))
          ++ [.commit, .release], .ok ())) ∧
    (∀ bevs j e, beginImmediate oracle rand 0 retryLimit = (bevs, .ok ()) →
      j < (filteredQueries queries).length →
      oracle.execRes j = some e →
      (∀ i, i < j → oracle.execRes i = none) →
      wrapperRun retryLimit rand oracle queries =
        (.acquire :: bevs ++
          ((((filteredQueries queries).map (·.sql)).take (j + 1)).map RunEv.exec)
          ++ [.rollback, .release], .error e)) := by
  obtain ⟨tail, hshape, hct, hsl⟩ := wrapperRun_events retryLimit rand oracle queries
  have hcb := beginImmediate_begin_count oracle rand retryLimit 0
  refine ⟨?_, ?_, ?_, ?_, ?_⟩
  · rw [hshape]
    simp only [List.count_cons, List.count_append, hct,
      show (RunEv.acquire == RunEv.begin) = false from rfl,
      Bool.false_eq_true, if_false, reduceIte]
    omega
  · intro ms hmem
    rw [hshape] at hmem
    simp only [List.mem_cons, List.mem_append] at hmem
    rcases hmem with (h | h) | h
    · cases h
    · obtain ⟨i, hi⟩ := beginImmediate_sleep_mem oracle rand retryLimit 0 ms h
      rw [hi]
      exact hrand i
    · exact absurd h (hsl ms)
  · rw [hshape]
    rfl
  · intro bevs hb hexec hcommit
    have hx := execQueries_all_ok oracle ((filteredQueries queries).map (·.sql)) 0
      (fun i hi => by
        rw [Nat.zero_add]
        exact hexec i (by simpa using hi))
    unfold wrapperRun
    rw [hb, hx, hcommit]
    simp only [List.map_map]
    rfl
  · intro bevs j e hb hj he hmin
    have hx := execQueries_first_fail oracle ((filteredQueries queries).map (·.sql)) 0 j e
      (by simpa using hj) (by rw [Nat.zero_add]; exact he)
      (fun i hi => by rw [Nat.zero_add]; exact hmin i hi)
    unfold wrapperRun
    rw [hb, hx]

/-! ## C4: the `latest` retention policy -/

theorem filter_map_comm_local {α β : Type} (f : α → β) (p : β → Bool) (l : List α) :
    (l.map f).filter p = (l.filter (fun a => p (f a))).map f := by
  induction l with
  | nil => rfl
  | cons a l ih =>
    simp only [List.map_cons, List.filter_cons]
    split <;> simp [ih]

theorem liveGroupRows_perm (tbl : List DRow) (group : Value) :
    List.Perm (liveGroupRows tbl group) (tbl.filter (isLiveGroup group)) :=
  List.perm_insertionSort _ _

theorem liveGroupRows_sorted (tbl : List DRow) (group : Value) :
    ((liveGroupRows tbl group).map (·.tid)).Sorted (· ≥ ·) := by
  haveI : IsTotal DRow (fun a b => b.tid ≤ a.tid) := ⟨fun a b => (Nat.le_total b.tid a.tid)⟩
  haveI : IsTrans DRow (fun a b => b.tid ≤ a.tid) :=
    ⟨fun a b c hab hbc => Nat.le_trans hbc hab⟩
  have hp := List.sorted_insertionSort (fun a b : DRow => b.tid ≤ a.tid)
    (tbl.filter (isLiveGroup group))
  unfold liveGroupRows
  exact List.Pairwise.map _ (fun a b h => h) hp

theorem tombstone_pointwise (group : Value) (extraT : List Nat) (now expire : Int)
    (r : DRow) :
    isLiveGroup group (if tombstoneCond group extraT now r then
        { r with existUntil := some expire } else r) =
      (isLiveGroup group r && !(extraT.contains r.tid)) := by
  by_cases hc : tombstoneCond group extraT now r = true
  · rw [if_pos hc]
    simp only [tombstoneCond, Bool.and_eq_true, decide_eq_true_eq] at hc
    obtain ⟨⟨hk, hmem⟩, hgate⟩ := hc
    have hl : isLiveGroup group { r with existUntil := some expire } = false := by
      simp [isLiveGroup]
    rw [hl]
    by_cases hlive : isLiveGroup group r = true
    · rw [hlive, hmem]
      rfl
    · rw [Bool.not_eq_true] at hlive
      rw [hlive]
      rfl
  · rw [if_neg hc]
    rw [Bool.not_eq_true] at hc
    by_cases hlive : isLiveGroup group r = true
    · rw [hlive]
      simp only [isLiveGroup, decide_eq_true_eq] at hlive
      obtain ⟨hk, hnone⟩ := hlive
      have hgate : gateDefaultHolds r.existUntil now = true := by
        rw [hnone]
        rfl
      simp only [tombstoneCond, hgate, Bool.and_true, Bool.and_eq_false_iff,
        decide_eq_false_iff_not] at hc
      rcases hc with hc | hc
      · exact absurd hk hc
      · rw [hc]
        rfl
    · rw [Bool.not_eq_true] at hlive
      rw [hlive]
      rfl

theorem keep_of_assigned (now expire : Int) (h : now ≤ expire) :
    decide (¬ deleteExpiredRemoves (some expire) now = true) = true := by
  simp [deleteExpiredRemoves]
  omega

/-- C4 (amended): after a put on a hash-key group under policy
`latest(count=k, grace_ttl=g)`, the retention step assigns
`_exist_until = now + g*1000` to every *live* revision of the group beyond the
`k` most recent live ones (the policy's query is gated on
`_exist_until IS NULL`, so revisions already carrying a deadline keep it or
are purged); consequently at most `k` rows of the group have
`_exist_until IS NULL`.  The live rows are considered in `tid`-descending
order. -/
theorem revisionPolicyUpdateLatest_bound (tbl : List DRow) (group : Value)
    (cnt : Nat) (graceTtl now : Int)
    (hnodup : ((tbl.filter (fun r => decide (r.hashKey = group))).map (·.tid)).Nodup)
    (hg : 0 ≤ graceTtl) :
    (∀ r ∈ tbl, r.hashKey = group → r.existUntil = none →
      r.tid ∈ ((liveGroupRows tbl group).drop cnt).map (·.tid) →
      ∃ r' ∈ revisionPolicyUpdateLatest tbl group cnt graceTtl now,
        r'.hashKey = group ∧ r'.tid = r.tid ∧
          r'.existUntil = some (now + graceTtl * 1000)) ∧
    (((revisionPolicyUpdateLatest tbl group cnt graceTtl now).filter
        (isLiveGroup group)).length ≤ cnt) ∧
    ((liveGroupRows tbl group).map (·.tid)).Sorted (· ≥ ·) := by
  have hexpire : now ≤ now + graceTtl * 1000 := by nlinarith
  refine ⟨?_, ?_, liveGroupRows_sorted tbl group⟩
  · intro r hr hk hnone hmem
    have hlen : cnt < (liveGroupRows tbl group).length := by
      by_contra hcon
      rw [List.drop_eq_nil_of_le (by omega)] at hmem
      simp at hmem
    have hcond : tombstoneCond group (((liveGroupRows tbl group).drop cnt).map (·.tid))
        now r = true := by
      simp only [tombstoneCond, Bool.and_eq_true, decide_eq_true_eq]
      refine ⟨⟨hk, by simpa using hmem⟩, ?_⟩
      rw [hnone]
      rfl
    refine ⟨{ r with existUntil := some (now + graceTtl * 1000) }, ?_, hk, rfl, rfl⟩
    unfold revisionPolicyUpdateLatest
    dsimp only []
    rw [if_pos hlen]
    rw [List.mem_filter]
    constructor
    · have hfr : (if tombstoneCond group (((liveGroupRows tbl group).drop cnt).map (·.tid))
            now r then { r with existUntil := some (now + graceTtl * 1000) } else r) =
          { r with existUntil := some (now + graceTtl * 1000) } := if_pos hcond
      rw [← hfr]
      exact List.mem_map_of_mem _ hr
    · exact keep_of_assigned now (now + graceTtl * 1000) hexpire
  · by_cases hlen : (liveGroupRows tbl group).length > cnt
    · unfold revisionPolicyUpdateLatest
      dsimp only []
      rw [if_pos hlen]
      refine le_trans (List.Sublist.length_le ((List.filter_sublist _).filter _)) ?_
      rw [filter_map_comm_local,
        List.filter_congr (fun r _ => tombstone_pointwise group
          (((liveGroupRows tbl group).drop cnt).map (·.tid)) now (now + graceTtl * 1000) r),
        List.length_map]
      have hsubl : List.Sublist
          (tbl.filter (fun r => isLiveGroup group r &&
            !(List.contains (((liveGroupRows tbl group).drop cnt).map (·.tid)) r.tid)))
          (tbl.filter (fun r => decide (r.hashKey = group))) := by
        apply List.monotone_filter_right
        intro a ha
        simp only [Bool.and_eq_true, isLiveGroup, decide_eq_true_eq] at ha
        simp only [decide_eq_true_eq]
        exact ha.1.1
      have hnd : ((tbl.filter (fun r => isLiveGroup group r &&
          !(List.contains (((liveGroupRows tbl group).drop cnt).map (·.tid)) r.tid))).map
            (·.tid)).Nodup :=
        hnodup.sublist (hsubl.map (·.tid))
      have hss : ∀ t ∈ (tbl.filter (fun r => isLiveGroup group r &&
          !(List.contains (((liveGroupRows tbl group).drop cnt).map (·.tid)) r.tid))).map
            (·.tid),
          t ∈ ((liveGroupRows tbl group).take cnt).map (·.tid) := by
        intro t ht
        obtain ⟨r, hrL, rfl⟩ := List.mem_map.mp ht
        obtain ⟨hrtbl, hcond2⟩ := List.mem_filter.mp hrL
        simp only [Bool.and_eq_true, Bool.not_eq_true'] at hcond2
        obtain ⟨hlive, hnc⟩ := hcond2
        have hrlive : r ∈ liveGroupRows tbl group :=
          ((liveGroupRows_perm tbl group).mem_iff).mpr (List.mem_filter.mpr ⟨hrtbl, hlive⟩)
        have hmt : r.tid ∈ (liveGroupRows tbl group).map (·.tid) :=
          List.mem_map_of_mem _ hrlive
        rw [← List.take_append_drop cnt (liveGroupRows tbl group), List.map_append,
          List.mem_append] at hmt
        rcases hmt with h | h
        · exact h
        · exfalso
          have hcontains : List.contains
              (((liveGroupRows tbl group).drop cnt).map (·.tid)) r.tid = true := by
            simpa using h
          rw [hcontains] at hnc
          cases hnc
      have hcard := List.toFinset_card_of_nodup hnd
      have hsubset : ((tbl.filter (fun r => isLiveGroup group r &&
          !(List.contains (((liveGroupRows tbl group).drop cnt).map (·.tid)) r.tid))).map
            (·.tid)).toFinset ⊆
          (((liveGroupRows tbl group).take cnt).map (·.tid)).toFinset := by
        intro x hx
        simp only [List.mem_toFinset] at hx ⊢
        exact hss x hx
      have hc1 := Finset.card_le_card hsubset
      have hc2 := List.toFinset_card_le (((liveGroupRows tbl group).take cnt).map (·.tid))
      have hc3 : (((liveGroupRows tbl group).take cnt).map (·.tid)).length ≤ cnt := by
        rw [List.length_map]
        exact List.length_take_le _ _
      have hback : (tbl.filter (fun r => isLiveGroup group r &&
          !(List.contains (((liveGroupRows tbl group).drop cnt).map (·.tid)) r.tid))).length =
          ((tbl.filter (fun r => isLiveGroup group r &&
            !(List.contains (((liveGroupRows tbl group).drop cnt).map (·.tid)) r.tid))).map
              (·.tid)).length := (List.length_map _ _).symm
      omega
    · unfold revisionPolicyUpdateLatest
      dsimp only []
      rw [if_neg hlen]
      have : (tbl.filter (isLiveGroup group)).length = (liveGroupRows tbl group).length :=
        (liveGroupRows_perm tbl group).length_eq.symm
      omega

/-- A group with four revisions: three live, and one already-tombstoned row
(`tid = 1`, `_exist_until = 200`). -/
def tblC4 : List DRow :=
  [⟨.str "g", 4, none⟩, ⟨.str "g", 3, none⟩, ⟨.str "g", 2, none⟩, ⟨.str "g", 1, some 200⟩]

/-- C4 counterexample: with `count = 2`, `grace_ttl = 0`, `now = 100`, the
revisions beyond the two most recent of the group (ordered by tid descending)
are `tid 2` and `tid 1`; the retention step assigns
`_exist_until = now + 0*1000 = 100` to `tid 2` only — the already-tombstoned
`tid 1` keeps its old deadline `200`, so the claim's "every revision ...
beyond the k most recent ones" is false. -/
theorem revisionPolicyUpdateLatest_counterexample :
    revisionPolicyUpdateLatest tblC4 (.str "g") 2 0 100 =
      [⟨.str "g", 4, none⟩, ⟨.str "g", 3, none⟩, ⟨.str "g", 2, some 100⟩,
        ⟨.str "g", 1, some 200⟩] ∧
    (∀ r ∈ revisionPolicyUpdateLatest tblC4 (.str "g") 2 0 100,
      r.tid = 1 → r.existUntil ≠ some 100) := by
  decide

/-- Witness for the amended C4 theorem on `tblC4`: the live revision `tid 2`
is tombstoned with `now + grace_ttl*1000`, and at most two rows of the group
stay live. -/
theorem revisionPolicyUpdateLatest_bound_witness :
    (∃ r' ∈ revisionPolicyUpdateLatest tblC4 (.str "g") 2 0 100,
      r'.hashKey = .str "g" ∧ r'.tid = 2 ∧ r'.existUntil = some (100 + 0 * 1000)) ∧
    ((revisionPolicyUpdateLatest tblC4 (.str "g") 2 0 100).filter
      (isLiveGroup (.str "g"))).length ≤ 2 :=
  ⟨(revisionPolicyUpdateLatest_bound tblC4 (.str "g") 2 0 100 (by decide) (by decide)).1
      ⟨.str "g", 2, none⟩ (by decide) rfl rfl (by decide),
   (revisionPolicyUpdateLatest_bound tblC4 (.str "g") 2 0 100 (by decide) (by decide)).2.1⟩

/-- An engine that reports `SQLITE_BUSY` on the first `begin immediate`
attempt and succeeds afterwards, with every statement and the commit
succeeding. -/
def oracleC6 : EngineOracle :=
  ⟨fun n => if n = 0 then .busy else .ok, fun _ => none, none⟩

/-- Witness for C6: one busy-retry (with its jittered sleep), then the single
filtered statement executes and the transaction commits. -/
theorem wrapperRun_spec_witness :
    wrapperRun 5 (fun _ => 1) oracleC6 [some ⟨"insert into t", []⟩, none, some ⟨"", []⟩] =
      ([.acquire, .begin, .sleep 1, .begin, .exec "insert into t", .commit, .release],
        .ok ()) :=
  (wrapperRun_spec 5 100 (fun _ => 1) oracleC6
    [some ⟨"insert into t", []⟩, none, some ⟨"", []⟩]
    (fun _ => ⟨Nat.le_refl 1, (by decide : (1 : Nat) ≤ 100)⟩)).2.2.2.1
    [.begin, .sleep 1, .begin] rfl (fun _ _ => rfl) rfl

end RestbaseSqlite

